import Mathlib

/-!
Verification of the listing-scraper pipeline of the `hunter` backend.

This file contains a shallow embedding, in Lean 4, of the pure core of the
repository: the price parser (`src/hunter/price_parser.py`), the error-page
guard (`src/hunter/scrapers/common.py`), the two auction-date parsers
(`src/hunter/scrapers/amw.py`, `src/hunter/scrapers/komornik.py` /
`elicytacje.py`), the listing normalizer (`src/hunter/schema.py`), the three
auction crawl loops (`komornik.py`, `elicytacje.py`, `amw.py`), the upsert
retry logic (`src/hunter/supabase_client.py`) and the run coordinator
(`src/hunter/run.py`).

Modelling conventions:
  * Python `Optional[str]` / `Optional[int]` become `Option String` / `Option Int`.
  * Python exceptions of collaborator calls become `Except String` values
    supplied by an environment record; the embedded control flow mirrors the
    `try`/`except` structure of the source.
  * HTTP fetching, HTML parsing (BeautifulSoup) and PostgREST are external
    collaborators.  The embedding cuts at those boundaries: a list page is
    modelled by the data the extractor reads off it, a detail fetch by its
    outcome (`none` models both a `None` parse result and a per-item
    exception, which the source treats identically: the item is skipped).
  * UTC instants are modelled as integers (epoch seconds); the
    `datetime.fromisoformat` round-trip done by the crawl cutoff check is
    modelled by an arbitrary parse-back function `String → Option Int`
    passed as a parameter.
-/

/-! ## String helpers (Python `str` semantics used by the sources) -/

/-- Characters treated as whitespace by Python's `str.strip` and by the `\s`
regex class for the inputs in scope (ASCII whitespace plus NBSP, which the
price normalizer strips explicitly). -/
def pyIsSpace (c : Char) : Bool :=
  c = ' ' || c = '\t' || c = '\n' || c = '\r' || c = '\x0b' || c = '\x0c' || c = '\xa0'

/-- Python `str.lower` restricted to the alphabets appearing in the sources:
ASCII plus the Polish diacritics used in the phrase tables. -/
def pyLowerChar (c : Char) : Char :=
  if 'A' ≤ c && c ≤ 'Z' then Char.ofNat (c.toNat + 32)
  else if c = 'Ą' then 'ą'
  else if c = 'Ć' then 'ć'
  else if c = 'Ę' then 'ę'
  else if c = 'Ł' then 'ł'
  else if c = 'Ń' then 'ń'
  else if c = 'Ó' then 'ó'
  else if c = 'Ś' then 'ś'
  else if c = 'Ź' then 'ź'
  else if c = 'Ż' then 'ż'
  else c

/-- Python `str.lower`. -/
def pyLower (s : String) : String := String.mk (s.data.map pyLowerChar)

/-- Python `str.strip()` (no argument): drop leading and trailing whitespace. -/
def pyStrip (s : String) : String :=
  String.mk (((s.data.dropWhile pyIsSpace).reverse.dropWhile pyIsSpace).reverse)

/-- Does `txt` start with `pat` (on character lists)? -/
def listStarts : List Char → List Char → Bool
  | [], _ => true
  | _ :: _, [] => false
  | a :: as, b :: bs => a = b && listStarts as bs

/-- Does `pat` occur as a contiguous substring of `txt` (character lists)? -/
def listHasSub (pat : List Char) : List Char → Bool
  | [] => listStarts pat []
  | c :: rest => listStarts pat (c :: rest) || listHasSub pat rest

/-- Python `pat in txt` for strings (substring containment). -/
def strContains (txt pat : String) : Bool := listHasSub pat.data txt.data

/-- Python `txt.startswith(pat)`. -/
def strStarts (txt pat : String) : Bool := listStarts pat.data txt.data

/-! ## Price parser — `src/hunter/price_parser.py` -/

/-- `NO_PRICE_PHRASES` (price_parser.py lines 8-16): phrases that mean
"no price", making the parser return `None`. -/
def NO_PRICE_PHRASES : List String :=
  [ "zapytaj o cenę"
  , "zapytaj o cene"
  , "cena do negocjacji"
  , "cena do uzgodnienia"
  , "na zapytanie"
  , "do uzgodnienia"
  , "kontakt" ]

/-- `_clean` (price_parser.py line 24-25): strip then lowercase. -/
def pyClean (s : String) : String := pyLower (pyStrip s)

/-- Character class `[\d\s.]` of the price regex `_PRICE_RE`. -/
def priceTokenClass (c : Char) : Bool := c.isDigit || pyIsSpace c || c = '.'

/-- One attempted match of `_PRICE_RE = (?:\d[\d\s.]*,\d{2}|\d[\d\s.]*)` at a
position whose first character `c` is a digit.  The greedy `[\d\s.]*` always
consumes the maximal class run; since `,` is not in the class, the first
alternative can only place its comma immediately after that run, so no
further backtracking is possible. -/
def priceMatchAt (c : Char) (rest : List Char) : List Char :=
  let run := rest.takeWhile priceTokenClass
  let after := rest.drop run.length
  match after with
  | ',' :: d1 :: d2 :: _ =>
      if d1.isDigit && d2.isDigit then c :: run ++ [',', d1, d2] else c :: run
  | _ => c :: run

/-- `re.search` with `_PRICE_RE`: the match at the leftmost digit. -/
def priceReSearch : List Char → Option (List Char)
  | [] => none
  | c :: rest => if c.isDigit then some (priceMatchAt c rest) else priceReSearch rest

/-- `_normalize_number` (price_parser.py lines 28-31): remove spaces, NBSP and
dots, then turn the decimal comma into a dot. -/
def normalizeNumber (cs : List Char) : List Char :=
  (cs.filter (fun c => ¬(c = ' ' || c = '\xa0' || c = '.'))).map
    (fun c => if c = ',' then '.' else c)

/-- Value of a digit character. -/
def dval (c : Char) : Nat := c.toNat - 48

/-- Numeric value of a digit list (most significant first). -/
def digitsValNat (cs : List Char) : Nat := cs.foldl (fun a c => 10 * a + dval c) 0

/-- Python `float(s)` restricted to the token shapes `_PRICE_RE` can produce
after normalization: a run of digits, optionally with a single decimal dot
(`"123"`, `"123.45"`, `"123."`, `".5"`).  Any other leftover character (e.g. a
tab, which the normalizer does not remove) fails, modelling `ValueError`.  The
value `n / 10^k` is kept exact as the pair `(n, k)`, a faithful model except
for binary-double representation corner cases that no claim exercises. -/
def parseDec (cs : List Char) : Option (Nat × Nat) :=
  let intPart := cs.takeWhile (·.isDigit)
  let rest := cs.drop intPart.length
  match rest with
  | [] => if intPart.isEmpty then none else some (digitsValNat intPart, 0)
  | '.' :: frac =>
      if frac.all (·.isDigit) && (¬intPart.isEmpty || ¬frac.isEmpty) then
        some (digitsValNat (intPart ++ frac), frac.length)
      else none
  | _ => none

/-- Python `round` (banker's rounding, half to even) of the exact fraction
`num / den` (`den > 0`). -/
def pyRoundDiv (num den : Nat) : Nat :=
  let q := num / den
  let r := num % den
  if 2 * r < den then q
  else if den < 2 * r then q + 1
  else if q % 2 = 0 then q else q + 1

/-- `price_pln_from_text` (price_parser.py lines 34-58): Polish price string to
integer grosze, `None` for empty/blank input or any "no price" phrase.  The
EUR branch of the source is a no-op (`pass`) and therefore has no effect. -/
def pricePlnFromText (text : Option String) : Option Int :=
  match text with
  | none => none
  | some s =>
    if s = "" then none
    else
      let t := pyClean s
      if t = "" then none
      else if NO_PRICE_PHRASES.any (fun ph => strContains t ph) then none
      else
        match priceReSearch t.data with
        | none => none
        | some tok =>
          match parseDec (normalizeNumber tok) with
          | none => none
          | some (n, k) =>
            -- `int(round(value * 100))` with value = n / 10^k, computed exactly
            some ((pyRoundDiv (n * 100) (10 ^ k) : Nat) : Int)

/-! ## Error-page guard — `src/hunter/scrapers/common.py` -/

/-- `ERROR_PAGE_PHRASES` (common.py lines 7-15). -/
def ERROR_PAGE_PHRASES : List String :=
  [ "brak połączenia z internetem"
  , "no internet connection"
  , "błąd"
  , "error"
  , "strona tymczasowo niedostępna"
  , "maintenance"
  , "przerwa techniczna" ]

/-- The combined text built by `is_likely_error_page` (common.py lines 23-25):
`" ".join` of the non-empty parts, then stripped. -/
def errorPageText (title description : Option String) : String :=
  pyStrip (String.intercalate " "
    (([title.getD "", description.getD ""]).filter (fun p => p ≠ "")))

/-- `is_likely_error_page` (common.py lines 18-29). -/
def isLikelyErrorPage (title : Option String) (description : Option String) : Bool :=
  let text := errorPageText title description
  if text = "" then false
  else
    let lower := pyLower text
    ERROR_PAGE_PHRASES.any (fun ph => strContains lower ph)

/-! ## Dates — `datetime` validity, `pytz` Europe/Warsaw, `isoformat` -/

/-- A `datetime` localized to Europe/Warsaw, as produced by the scrapers'
`tz.localize(datetime(...))` (naive civil fields plus the fixed zone). -/
structure PyDT where
  year : Nat
  month : Nat
  day : Nat
  hour : Nat
  minute : Nat
deriving DecidableEq

/-- Gregorian leap year. -/
def isLeapYear (y : Nat) : Bool := (y % 4 = 0 && y % 100 ≠ 0) || y % 400 = 0

/-- Days in a month. -/
def daysInMonth (y m : Nat) : Nat :=
  if m = 2 then (if isLeapYear y then 29 else 28)
  else if m = 4 || m = 6 || m = 9 || m = 11 then 30
  else 31

/-- Validity of the civil fields, as enforced by the `datetime` constructor
(`ValueError` otherwise): year in `MINYEAR..MAXYEAR`, month/day in range,
hour < 24, minute < 60. -/
def validDT (dt : PyDT) : Bool :=
  1 ≤ dt.year && dt.year ≤ 9999 &&
  1 ≤ dt.month && dt.month ≤ 12 &&
  1 ≤ dt.day && dt.day ≤ daysInMonth dt.year dt.month &&
  dt.hour ≤ 23 && dt.minute ≤ 59

/-- `tz.localize(datetime(year, month, day, hour, minute))`: `none` models the
`ValueError` of an invalid civil date (e.g. Feb 31), which the scrapers catch
and turn into an absent date. -/
def localizeWarsaw (y m d h mi : Nat) : Option PyDT :=
  let dt : PyDT := ⟨y, m, d, h, mi⟩
  if validDT dt then some dt else none

/-- Day of week by Zeller's congruence (0 = Sunday), for Gregorian dates. -/
def dayOfWeek0Sun (y m d : Nat) : Nat :=
  let y' := if m ≤ 2 then y - 1 else y
  let m' := if m ≤ 2 then m + 12 else m
  let K := y' % 100
  let J := y' / 100
  (d + (13 * (m' + 1)) / 5 + K + K / 4 + J / 4 + 5 * J + 6) % 7

/-- Day of the last Sunday of a month. -/
def lastSundayOf (y m : Nat) : Nat :=
  let ld := daysInMonth y m
  ld - dayOfWeek0Sun y m ld

/-- Europe/Warsaw DST: CEST (UTC+2) from the last Sunday of March 03:00 local
to the last Sunday of October 02:00 local; `pytz.localize` with its default
`is_dst=False` resolves both the spring gap and the autumn fold to the
standard offset, matching the boundary conditions here. -/
def isWarsawSummer (dt : PyDT) : Bool :=
  if 4 ≤ dt.month && dt.month ≤ 9 then true
  else if dt.month = 3 then
    let ls := lastSundayOf dt.year 3
    dt.day > ls || (dt.day = ls && 3 ≤ dt.hour)
  else if dt.month = 10 then
    let ls := lastSundayOf dt.year 10
    dt.day < ls || (dt.day = ls && dt.hour < 2)
  else false

/-- UTC offset of a Warsaw-localized datetime, in minutes. -/
def warsawOffsetMinutes (dt : PyDT) : Int := if isWarsawSummer dt then 120 else 60

/-- `n` rendered as exactly two decimal digits (zero padded; `n < 100`). -/
def pad2 (n : Nat) : List Char :=
  [Char.ofNat ((n / 10) % 10 + 48), Char.ofNat (n % 10 + 48)]

/-- `n` rendered as exactly four decimal digits (zero padded; `n < 10000`). -/
def pad4 (n : Nat) : List Char :=
  [Char.ofNat ((n / 1000) % 10 + 48), Char.ofNat ((n / 100) % 10 + 48),
   Char.ofNat ((n / 10) % 10 + 48), Char.ofNat (n % 10 + 48)]

/-- `datetime.isoformat()` of a Warsaw-localized datetime with zero seconds:
`YYYY-MM-DDTHH:MM:SS+01:00` (or `+02:00` during CEST). -/
def isoWarsaw (dt : PyDT) : String :=
  String.mk (pad4 dt.year ++ '-' :: pad2 dt.month ++ '-' :: pad2 dt.day ++
    'T' :: pad2 dt.hour ++ ':' :: pad2 dt.minute ++
    (':' :: '0' :: '0' :: [] ) ++
    (if isWarsawSummer dt then ['+', '0', '2', ':', '0', '0'] else ['+', '0', '1', ':', '0', '0']))

/-! ### The AMW date grammar — `amw.py` `_parse_auction_date` (lines 24-43)

The two regexes
`(\d{1,2})\.(\d{1,2})\.(\d{4})r?\s*,?\s*godz\.?\s*(\d{1,2}):(\d{2})` and
`(\d{1,2})\.(\d{1,2})\.(\d{4})` are hand-compiled below.  Every quantifier in
them is greedy but, because each is followed by a character its own class
cannot match, the greedy choice is forced and the match is deterministic, so
the step-by-step readers below implement exactly `re.search`'s backtracking
semantics. -/

/-- Greedy `(\d{1,2})`: two digits when available, else one. -/
def takeDigits12 : List Char → Option (Nat × List Char)
  | c1 :: c2 :: rest =>
      if c1.isDigit then
        if c2.isDigit then some (10 * dval c1 + dval c2, rest)
        else some (dval c1, c2 :: rest)
      else none
  | [c1] => if c1.isDigit then some (dval c1, []) else none
  | [] => none

/-- Exactly two digits, `(\d{2})`. -/
def takeDigits2 : List Char → Option (Nat × List Char)
  | c1 :: c2 :: rest =>
      if c1.isDigit && c2.isDigit then some (10 * dval c1 + dval c2, rest) else none
  | _ => none

/-- Exactly four digits, `(\d{4})`. -/
def takeDigits4 : List Char → Option (Nat × List Char)
  | c1 :: c2 :: c3 :: c4 :: rest =>
      if c1.isDigit && c2.isDigit && c3.isDigit && c4.isDigit then
        some (1000 * dval c1 + 100 * dval c2 + 10 * dval c3 + dval c4, rest)
      else none
  | _ => none

/-- A required literal character. -/
def expectCh (c : Char) : List Char → Option (List Char)
  | x :: rest => if x = c then some rest else none
  | [] => none

/-- An optional literal character (`c?`, greedy). -/
def optCh (c : Char) : List Char → List Char
  | x :: rest => if x = c then rest else x :: rest
  | [] => []

/-- A required literal string. -/
def expectLit : List Char → List Char → Option (List Char)
  | [], s => some s
  | l :: ls, x :: rest => if x = l then expectLit ls rest else none
  | _ :: _, [] => none

/-- Attempt the full `godz.` pattern at the start of `cs`; yields
(day, month, year, hour, minute). -/
def matchGodzAt (cs : List Char) : Option (Nat × Nat × Nat × Nat × Nat) := do
  let (d, s) ← takeDigits12 cs
  let s ← expectCh '.' s
  let (m, s) ← takeDigits12 s
  let s ← expectCh '.' s
  let (y, s) ← takeDigits4 s
  let s := optCh 'r' s
  let s := s.dropWhile pyIsSpace
  let s := optCh ',' s
  let s := s.dropWhile pyIsSpace
  let s ← expectLit ['g', 'o', 'd', 'z'] s
  let s := optCh '.' s
  let s := s.dropWhile pyIsSpace
  let (h, s) ← takeDigits12 s
  let s ← expectCh ':' s
  let (mi, _) ← takeDigits2 s
  pure (d, m, y, h, mi)

/-- `re.search` for the `godz.` pattern: try every start position, leftmost
match wins. -/
def searchGodz : List Char → Option (Nat × Nat × Nat × Nat × Nat)
  | [] => none
  | c :: rest =>
    match matchGodzAt (c :: rest) with
    | some r => some r
    | none => searchGodz rest

/-- Attempt the bare `(\d{1,2})\.(\d{1,2})\.(\d{4})` pattern at the start. -/
def matchDMYAt (cs : List Char) : Option (Nat × Nat × Nat) := do
  let (d, s) ← takeDigits12 cs
  let s ← expectCh '.' s
  let (m, s) ← takeDigits12 s
  let s ← expectCh '.' s
  let (y, _) ← takeDigits4 s
  pure (d, m, y)

/-- `re.search` for the bare date pattern. -/
def searchDMY : List Char → Option (Nat × Nat × Nat)
  | [] => none
  | c :: rest =>
    match matchDMYAt (c :: rest) with
    | some r => some r
    | none => searchDMY rest

/-- `_parse_auction_date` of `amw.py` (lines 24-43): the `godz.` grammar with
explicit hour/minute, else the bare date with the 10:00 default, localized to
Europe/Warsaw; `none` for missing input, no match, or an invalid date. -/
def amwParseAuctionDate (text : Option String) : Option PyDT :=
  match text with
  | none => none
  | some s =>
    if s = "" then none
    else
      let cs := (pyStrip s).data
      match searchGodz cs with
      | some (d, m, y, h, mi) => localizeWarsaw y m d h mi
      | none =>
        match searchDMY cs with
        | some (d, m, y) => localizeWarsaw y m d 10 0
        | none => none

/-! ### The fixed-format date grammar — `komornik.py` / `elicytacje.py`
`_parse_auction_date` (komornik.py lines 24-36): `datetime.strptime` against
`%Y-%m-%d %H:%M`, `%d.%m.%Y %H:%M`, `%d.%m.%Y` in that order, on the first 19
characters of the stripped input.  The readers below implement CPython's
`_strptime` compiled regexes for these directives (`%d` = `3[01]|[12]\d|0[1-9]|[1-9]`,
`%m` = `1[0-2]|0[1-9]|[1-9]`, `%H` = `2[0-3]|[0-1]\d|\d`, `%M` = `[0-5]\d|\d`,
`%Y` = `\d{4}`, whitespace in the format = `\s+`), requiring the whole string
to be consumed ("unconverted data remains" otherwise). -/

/-- `%d` directive: ordered alternation `3[01]|[12]\d|0[1-9]|[1-9]`. -/
def matchD : List Char → Option (Nat × List Char)
  | c1 :: c2 :: rest =>
      if c1 = '3' && (c2 = '0' || c2 = '1') then some (30 + dval c2, rest)
      else if (c1 = '1' || c1 = '2') && c2.isDigit then some (10 * dval c1 + dval c2, rest)
      else if c1 = '0' && ('1' ≤ c2 && c2 ≤ '9') then some (dval c2, rest)
      else if '1' ≤ c1 && c1 ≤ '9' then some (dval c1, c2 :: rest)
      else none
  | [c1] => if '1' ≤ c1 && c1 ≤ '9' then some (dval c1, []) else none
  | [] => none

/-- `%m` directive: `1[0-2]|0[1-9]|[1-9]`. -/
def matchM : List Char → Option (Nat × List Char)
  | c1 :: c2 :: rest =>
      if c1 = '1' && ('0' ≤ c2 && c2 ≤ '2') then some (10 + dval c2, rest)
      else if c1 = '0' && ('1' ≤ c2 && c2 ≤ '9') then some (dval c2, rest)
      else if '1' ≤ c1 && c1 ≤ '9' then some (dval c1, c2 :: rest)
      else none
  | [c1] => if '1' ≤ c1 && c1 ≤ '9' then some (dval c1, []) else none
  | [] => none

/-- `%H` directive: `2[0-3]|[0-1]\d|\d`. -/
def matchH : List Char → Option (Nat × List Char)
  | c1 :: c2 :: rest =>
      if c1 = '2' && ('0' ≤ c2 && c2 ≤ '3') then some (20 + dval c2, rest)
      else if (c1 = '0' || c1 = '1') && c2.isDigit then some (10 * dval c1 + dval c2, rest)
      else if c1.isDigit then some (dval c1, c2 :: rest)
      else none
  | [c1] => if c1.isDigit then some (dval c1, []) else none
  | [] => none

/-- `%M` directive: `[0-5]\d|\d`. -/
def matchMin : List Char → Option (Nat × List Char)
  | c1 :: c2 :: rest =>
      if ('0' ≤ c1 && c1 ≤ '5') && c2.isDigit then some (10 * dval c1 + dval c2, rest)
      else if c1.isDigit then some (dval c1, c2 :: rest)
      else none
  | [c1] => if c1.isDigit then some (dval c1, []) else none
  | [] => none

/-- `\s+` (whitespace in a strptime format string). -/
def expectSpaces1 : List Char → Option (List Char)
  | c :: rest => if pyIsSpace c then some (rest.dropWhile pyIsSpace) else none
  | [] => none

/-- Format `%Y-%m-%d %H:%M`, consuming the entire input. -/
def fmtYMDHM (cs : List Char) : Option (Nat × Nat × Nat × Nat × Nat) := do
  let (y, s) ← takeDigits4 cs
  let s ← expectCh '-' s
  let (m, s) ← matchM s
  let s ← expectCh '-' s
  let (d, s) ← matchD s
  let s ← expectSpaces1 s
  let (h, s) ← matchH s
  let s ← expectCh ':' s
  let (mi, s) ← matchMin s
  if s.isEmpty then pure (y, m, d, h, mi) else none

/-- Format `%d.%m.%Y %H:%M`, consuming the entire input. -/
def fmtDMYHM (cs : List Char) : Option (Nat × Nat × Nat × Nat × Nat) := do
  let (d, s) ← matchD cs
  let s ← expectCh '.' s
  let (m, s) ← matchM s
  let s ← expectCh '.' s
  let (y, s) ← takeDigits4 s
  let s ← expectSpaces1 s
  let (h, s) ← matchH s
  let s ← expectCh ':' s
  let (mi, s) ← matchMin s
  if s.isEmpty then pure (y, m, d, h, mi) else none

/-- Format `%d.%m.%Y`, consuming the entire input (time defaults to 00:00). -/
def fmtDMY (cs : List Char) : Option (Nat × Nat × Nat × Nat × Nat) := do
  let (d, s) ← matchD cs
  let s ← expectCh '.' s
  let (m, s) ← matchM s
  let s ← expectCh '.' s
  let (y, s) ← takeDigits4 s
  if s.isEmpty then pure (y, m, d, 0, 0) else none

/-- One `strptime` attempt followed by localization; an invalid civil date
raises `ValueError` inside `strptime`, which the caller's `except` turns into
trying the next format. -/
def tryFmt (p : List Char → Option (Nat × Nat × Nat × Nat × Nat)) (cs : List Char) :
    Option PyDT :=
  match p cs with
  | some (y, m, d, h, mi) => localizeWarsaw y m d h mi
  | none => none

/-- `_parse_auction_date` of `komornik.py` (lines 24-36) and, identically,
`elicytacje.py` (lines 23-34): fixed formats on `text.strip()[:19]`. -/
def komornikParseAuctionDate (text : Option String) : Option PyDT :=
  match text with
  | none => none
  | some s =>
    if s = "" then none
    else
      let cs := ((pyStrip s).data).take 19
      match tryFmt fmtYMDHM cs with
      | some dt => some dt
      | none =>
        match tryFmt fmtDMYHM cs with
        | some dt => some dt
        | none => tryFmt fmtDMY cs

/-! ## Normalized listings — `src/hunter/schema.py` -/

/-- The normalized listing dict (schema.py lines 27-39).  `raw_data` is an
opaque audit payload that no modeled code path ever reads, so it is omitted
from the embedding. -/
structure Listing where
  title : String
  description : Option String
  price_pln : Option Int
  location : String
  city : String
  source : String
  source_url : String
  auction_date : Option String
  images : List String
  region : Option String
deriving DecidableEq

/-- `normalized_listing` (schema.py lines 10-39): empty description becomes
absent (`description or None`), the auction date is stored as its
`isoformat()` string or `None`. -/
def normalizedListing (title : String) (description : Option String)
    (price_pln : Option Int) (location city source source_url : String)
    (auction_date : Option PyDT) (images : List String) (region : Option String) :
    Listing :=
  { title := title
  , description := match description with
      | some "" => none
      | d => d
  , price_pln := price_pln
  , location := location
  , city := city
  , source := source
  , source_url := source_url
  , auction_date := auction_date.map isoWarsaw
  , images := images
  , region := region }

/-- `for_supabase` (schema.py lines 42-52): a blank/absent `auction_date`
becomes `None`; other fields pass through.  (The `hasattr(val, "isoformat")`
branch cannot fire here: `normalized_listing` already stored a string.) -/
def forSupabase (row : Listing) : Listing :=
  { row with auction_date := match row.auction_date with
      | none => none
      | some s => if pyStrip s = "" then none else some s }

/-! ## Crawl loops — `komornik.py` / `elicytacje.py`

The crawl is embedded at the extraction boundary: a run is given the list of
list pages the site would serve, where each page is either `none` (the list
fetch raised `httpx.HTTPError`, breaking pagination) or the sequence of
candidate items of that page, each candidate carrying the outcome of its
detail fetch + parse (`none` models both a `None` result of the detail parser
and a per-item exception; the source skips the item in both cases).
Timestamps are epoch-second integers; the stored `auction_date` strings are
read back through an arbitrary parse function `parseIso : String → Option Int`
modelling `datetime.fromisoformat` + UTC conversion, with `none` as
`ValueError`. -/

/-- `_cutoff_for_days_back` (komornik.py lines 132-136, elicytacje.py lines
97-100), with `now` = `datetime.now(timezone.utc)` in epoch seconds. -/
def cutoffForDaysBack (now : Int) (days : Int) : Option Int :=
  if days ≤ 0 then none else some (now - days * 86400)

/-- The crawl's per-row cutoff test (komornik.py lines 178-188, elicytacje.py
lines 128-138): fires only when a cutoff is configured and the row's stored
`auction_date` string is truthy and parses back, and then exactly when the
instant is strictly before the cutoff. -/
def cutoffHit (parseIso : String → Option Int) (cutoff : Option Int)
    (adStr : Option String) : Bool :=
  match cutoff, adStr with
  | some c, some s =>
      if s = "" then false
      else
        match parseIso s with
        | some t => decide (t < c)
        | none => false
  | _, _ => false

/-- One candidate item of a komornik list page: the candidate URL and region
from `_parse_list_page`, and the outcome of `sync_get_with_retry` +
`_parse_detail_page` for it. -/
structure KPageItem where
  url : String
  region : Option String
  outcome : Option Listing
deriving DecidableEq

/-- Region backfill (komornik.py lines 176-177): `row["region"] = item["region"]`
when the item has one. -/
def applyRegionBackfill (it : KPageItem) (row : Listing) : Listing :=
  match it.region with
  | some rg => { row with region := some rg }
  | none => row

/-- The inner `for item in items` loop of `scrape_komornik` (lines 171-194).
Returns the grown accumulator and the `stop_early` flag. -/
def komornikItems (parseIso : String → Option Int) (cutoff : Option Int)
    (maxListings : Option Nat) :
    List KPageItem → List Listing → List Listing × Bool
  | [], acc => (acc, false)
  | it :: rest, acc =>
    match it.outcome with
    | none => komornikItems parseIso cutoff maxListings rest acc
    | some row0 =>
      let row := applyRegionBackfill it row0
      if cutoffHit parseIso cutoff row.auction_date then (acc, true)
      else
        let acc' := acc ++ [row]
        match maxListings with
        | some m => if m ≤ acc'.length then (acc', true)
                    else komornikItems parseIso cutoff maxListings rest acc'
        | none => komornikItems parseIso cutoff maxListings rest acc'

/-- The `while page <= max_pages and not stop_early` loop of `scrape_komornik`
(lines 156-198).  The returned `Nat` counts list pages fetched.  A `none`
page models an `httpx.HTTPError` on the list fetch (logged, `break`); an
empty candidate list also breaks pagination. -/
def komornikPages (parseIso : String → Option Int) (cutoff : Option Int)
    (maxListings : Option Nat) :
    Nat → List (Option (List KPageItem)) → List Listing → List Listing × Nat
  | 0, _, acc => (acc, 0)
  | _ + 1, [], acc => (acc, 0)
  | fuel + 1, pg :: rest, acc =>
    match pg with
    | none => (acc, 1)
    | some items =>
      if items.isEmpty then (acc, 1)
      else
        match komornikItems parseIso cutoff maxListings items acc with
        | (acc', true) => (acc', 1)
        | (acc', false) =>
          let r := komornikPages parseIso cutoff maxListings fuel rest acc'
          (r.1, r.2 + 1)

/-- The scraping section of the config dict, as read by the scrapers. -/
structure ScrapingConfig where
  max_pages_auctions : Nat := 50
  max_listings : Option Nat := none
  days_back : Option Int := none
deriving DecidableEq

/-- The cutoff a scraper derives from its config (komornik.py line 151-152,
elicytacje.py lines 108-109). -/
def configCutoff (now : Int) (cfg : ScrapingConfig) : Option Int :=
  match cfg.days_back with
  | some d => cutoffForDaysBack now d
  | none => none

/-- `scrape_komornik` (komornik.py lines 139-199) over modelled pages: reads
`max_pages_auctions`, `max_listings` and `days_back` from the config. -/
def scrapeKomornikModel (parseIso : String → Option Int) (now : Int)
    (cfg : ScrapingConfig) (pages : List (Option (List KPageItem))) :
    List Listing × Nat :=
  komornikPages parseIso (configCutoff now cfg) cfg.max_listings
    cfg.max_pages_auctions pages []

/-- The inner item loop of `scrape_elicytacje` (elicytacje.py lines 123-141):
identical to komornik's except that there is no region backfill and no
`max_listings` check. -/
def elicytacjeItems (parseIso : String → Option Int) (cutoff : Option Int) :
    List (Option Listing) → List Listing → List Listing × Bool
  | [], acc => (acc, false)
  | it :: rest, acc =>
    match it with
    | none => elicytacjeItems parseIso cutoff rest acc
    | some row =>
      if cutoffHit parseIso cutoff row.auction_date then (acc, true)
      else elicytacjeItems parseIso cutoff rest (acc ++ [row])

/-- The page loop of `scrape_elicytacje` (lines 113-145). -/
def elicytacjePages (parseIso : String → Option Int) (cutoff : Option Int) :
    Nat → List (Option (List (Option Listing))) → List Listing → List Listing × Nat
  | 0, _, acc => (acc, 0)
  | _ + 1, [], acc => (acc, 0)
  | fuel + 1, pg :: rest, acc =>
    match pg with
    | none => (acc, 1)
    | some items =>
      if items.isEmpty then (acc, 1)
      else
        match elicytacjeItems parseIso cutoff items acc with
        | (acc', true) => (acc', 1)
        | (acc', false) =>
          let r := elicytacjePages parseIso cutoff fuel rest acc'
          (r.1, r.2 + 1)

/-- `scrape_elicytacje` (elicytacje.py lines 103-146) over modelled pages: it
reads only `max_pages_auctions` and `days_back` from the config — the
`max_listings` setting is not consulted anywhere in its body. -/
def scrapeElicytacjeModel (parseIso : String → Option Int) (now : Int)
    (cfg : ScrapingConfig) (pages : List (Option (List (Option Listing)))) :
    List Listing × Nat :=
  elicytacjePages parseIso (configCutoff now cfg) cfg.max_pages_auctions pages []

/-! ## List-page extraction — `_parse_list_page` of komornik / elicytacje

The BeautifulSoup layer is cut at the data the code reads from it: for
komornik, each `<tr>` is modelled by the stripped text of its `<td>` cells
plus the `href` attributes of the anchors inside cell 7; for elicytacje, the
`a[href*='/licytacje/']` selection is modelled by the anchors' hrefs and
texts.  `urllib.parse.urljoin` is modelled for the absolute bases used here:
an absolute reference is returned unchanged, otherwise it is resolved against
the base origin. -/

def KOMORNIK_BASE : String := "https://licytacje.komornik.pl"

def ELICYTACJE_BASE : String := "https://elicytacje.komornik.pl"

/-- Characters allowed in a URI scheme after the initial letter. -/
def isSchemeChar (c : Char) : Bool := c.isAlphanum || c = '+' || c = '-' || c = '.'

/-- Does `s` begin with a URI scheme (`urllib.parse` scheme detection: a
letter, then letters/digits/`+`/`-`/`.`, immediately followed by `:`)? -/
def hasScheme (s : String) : Bool :=
  match s.data with
  | [] => false
  | c :: rest =>
    c.isAlpha && ((rest.drop (rest.takeWhile isSchemeChar).length).headD ' ' = ':')

/-- Simplified `urljoin(base, rel)` for the fixed origin-only bases above: an
absolute reference is returned unchanged, otherwise it is resolved against
the base origin. -/
def urljoinModel (base rel : String) : String :=
  if hasScheme rel then rel
  else if strStarts rel "/" then base ++ rel
  else base ++ "/" ++ rel

/-- A komornik list-table row (`<tr>`): its cell texts and the hrefs of the
anchors inside cell 7 (`none` = anchor without `href`). -/
structure KTableRow where
  tds : List String
  anchors7 : List (Option String)
deriving DecidableEq

/-- `tds[7].find("a", href=lambda h: h and "Notice/Details" in h)`. -/
def findDetailsAnchor : List (Option String) → Option String
  | [] => none
  | a :: rest =>
    match a with
    | some h => if h ≠ "" && strContains h "Notice/Details" then some h
                else findDetailsAnchor rest
    | none => findDetailsAnchor rest

/-- A candidate item produced by komornik's `_parse_list_page`. -/
structure KItem where
  url : String
  title : String
  region : Option String
deriving DecidableEq

/-- Python `s.index(c)` as an option (first occurrence). -/
def strIndexOfCh (s : String) (c : Char) : Option Nat :=
  s.data.indexOf? c

/-- The region extracted from the `Miasto (Województwo)` cell (komornik.py
lines 69-72): the stripped text between the first `(` and the first `)`. -/
def kRegionOf (raw : String) : Option String :=
  if strContains raw "(" && strContains raw ")" then
    match strIndexOfCh raw '(', strIndexOfCh raw ')' with
    | some i, some j => some (pyStrip (String.mk ((raw.data.drop (i + 1)).take (j - (i + 1)))))
    | _, _ => none
  else none

/-- The tail of komornik's per-row body once an anchor href is found
(komornik.py lines 61-73): the `if not href` / URL checks and the item
construction; `none` models `continue`. -/
def kItemOfHref (row : KTableRow) (href : String) : Option KItem :=
  if href = "" then none
  else
    let fullUrl := urljoinModel KOMORNIK_BASE href
    if strContains fullUrl "licytacje.komornik.pl" && strContains fullUrl "Details" then
      let title0 := pyStrip (row.tds.getD 3 "")
      let title := if title0 = "" then "Licytacja komornicza" else title0
      some { url := fullUrl, title := title, region := kRegionOf (row.tds.getD 4 "") }
    else none

/-- The per-row body of komornik's `_parse_list_page` loop (lines 51-73):
filters then the item construction; `none` models `continue`. -/
def kRowToItem (regionLower : String) (row : KTableRow) : Option KItem :=
  if row.tds.length < 8 then none
  else if regionLower ≠ "" && ¬ strContains (pyLower (row.tds.getD 4 "")) regionLower then none
  else (findDetailsAnchor row.anchors7).bind (kItemOfHref row)

/-- The dedup comprehension of `_parse_list_page` (komornik.py lines 74-75)
and the equivalent loop in elicytacje.py (lines 48-54): keep the first item
for each URL, preserving order.  `key` projects the URL. -/
def dedupByKey (key : KItem → String) (seen : List String) : List KItem → List KItem
  | [] => []
  | x :: xs =>
    if key x ∈ seen then dedupByKey key seen xs
    else x :: dedupByKey key (key x :: seen) xs

/-- `_parse_list_page` of komornik.py (lines 39-75). -/
def parseListPageK (regionFilter : Option String) (rows : List KTableRow) : List KItem :=
  let regionLower := pyLower (pyStrip (regionFilter.getD ""))
  dedupByKey (·.url) [] (rows.filterMap (kRowToItem regionLower))

/-- An elicytacje list-page anchor: its `href` attribute and text. -/
structure EAnchor where
  href : Option String
  text : String
deriving DecidableEq

/-- The tail of elicytacje's per-anchor body once an href is present
(elicytacje.py lines 40-47); the candidate URL is the resolved href with its
query string stripped. -/
def eItemOfHref (txt href : String) : Option KItem :=
  if href = "" then none
  else
    let fullUrl := urljoinModel ELICYTACJE_BASE href
    if strContains fullUrl "elicytacje.komornik.pl" && strContains fullUrl "/licytacje/" then
      let title0 := pyStrip txt
      let title := if title0 = "" then "E-licytacja" else title0
      some { url := String.mk (fullUrl.data.takeWhile (· ≠ '?')), title := title, region := none }
    else none

/-- The per-anchor body of elicytacje's `_parse_list_page` loop (lines 39-47). -/
def eAnchorToItem (a : EAnchor) : Option KItem :=
  a.href.bind (eItemOfHref a.text)

/-- `_parse_list_page` of elicytacje.py (lines 37-54). -/
def parseListPageE (anchors : List EAnchor) : List KItem :=
  dedupByKey (·.url) [] (anchors.filterMap eAnchorToItem)

/-! ## AMW — `src/hunter/scrapers/amw.py`

AMW offers have no detail URLs; identity is
`sha256(f"{title}|{price_pln or 0}|{iso-date or ''}").hexdigest()[:16]`
embedded as a fragment on a fixed base URL (amw.py lines 94-97).  SHA-256 is
implemented below over byte lists (Nat mod 2^32 arithmetic). -/

def M32 : Nat := 4294967296

/-- 32-bit right rotation. -/
def rotr32 (x n : Nat) : Nat := ((x >>> n) ||| (x <<< (32 - n))) % M32

/-- SHA-256 round constants (FIPS 180-4, in decimal). -/
def sha256K : List Nat :=
  [
   1116352408, 1899447441, 3049323471, 3921009573, 961987163, 1508970993,
   2453635748, 2870763221, 3624381080, 310598401, 607225278, 1426881987,
   1925078388, 2162078206, 2614888103, 3248222580, 3835390401, 4022224774,
   264347078, 604807628, 770255983, 1249150122, 1555081692, 1996064986,
   2554220882, 2821834349, 2952996808, 3210313671, 3336571891, 3584528711,
   113926993, 338241895, 666307205, 773529912, 1294757372, 1396182291,
   1695183700, 1986661051, 2177026350, 2456956037, 2730485921, 2820302411,
   3259730800, 3345764771, 3516065817, 3600352804, 4094571909, 275423344,
   430227734, 506948616, 659060556, 883997877, 958139571, 1322822218,
   1537002063, 1747873779, 1955562222, 2024104815, 2227730452, 2361852424,
   2428436474, 2756734187, 3204031479, 3329325298]

/-- SHA-256 initial hash value (FIPS 180-4, in decimal). -/
def sha256H0 : List Nat :=
  [
   1779033703, 3144134277, 1013904242, 2773480762,
   1359893119, 2600822924, 528734635, 1541459225]

/-- Big-endian 8-byte encoding. -/
def be64 (n : Nat) : List Nat :=
  [(n >>> 56) % 256, (n >>> 48) % 256, (n >>> 40) % 256, (n >>> 32) % 256,
   (n >>> 24) % 256, (n >>> 16) % 256, (n >>> 8) % 256, n % 256]

/-- Big-endian 4-byte encoding of a 32-bit word. -/
def be4 (n : Nat) : List Nat := [(n >>> 24) % 256, (n >>> 16) % 256, (n >>> 8) % 256, n % 256]

/-- SHA-256 message padding. -/
def sha256Pad (msg : List Nat) : List Nat :=
  let L := msg.length
  let k := (64 - ((L + 9) % 64)) % 64
  msg ++ [0x80] ++ List.replicate k 0 ++ be64 (8 * L)

/-- Big-endian 32-bit words from bytes. -/
def bytesToWords : List Nat → List Nat
  | b1 :: b2 :: b3 :: b4 :: rest =>
      ((b1 <<< 24) + (b2 <<< 16) + (b3 <<< 8) + b4) :: bytesToWords rest
  | _ => []

/-- Split into 64-byte chunks (`fuel` bounds the recursion structurally). -/
def chunks64Aux : Nat → List Nat → List (List Nat)
  | 0, _ => []
  | _, [] => []
  | fuel + 1, x :: xs => ((x :: xs).take 64) :: chunks64Aux fuel (xs.drop 63)

/-- Split into 64-byte chunks. -/
def chunks64 (l : List Nat) : List (List Nat) := chunks64Aux l.length l

/-- Extend the 16-word schedule by `fuel` further words. -/
def sha256Extend (ws : List Nat) : Nat → List Nat
  | 0 => ws
  | f + 1 =>
    let n := ws.length
    let w15 := ws.getD (n - 15) 0
    let w2 := ws.getD (n - 2) 0
    let w16 := ws.getD (n - 16) 0
    let w7 := ws.getD (n - 7) 0
    let s0 := (rotr32 w15 7) ^^^ (rotr32 w15 18) ^^^ (w15 >>> 3)
    let s1 := (rotr32 w2 17) ^^^ (rotr32 w2 19) ^^^ (w2 >>> 10)
    sha256Extend (ws ++ [(w16 + s0 + w7 + s1) % M32]) f

/-- The 64-round compression loop on state `[a,b,c,d,e,f,g,h]`. -/
def sha256Rounds : List (Nat × Nat) → List Nat → List Nat
  | [], st => st
  | (k, w) :: rest, st =>
    let a := st.getD 0 0
    let b := st.getD 1 0
    let c := st.getD 2 0
    let d := st.getD 3 0
    let e := st.getD 4 0
    let f := st.getD 5 0
    let g := st.getD 6 0
    let h := st.getD 7 0
    let S1 := (rotr32 e 6) ^^^ (rotr32 e 11) ^^^ (rotr32 e 25)
    let ch := (e &&& f) ^^^ ((e ^^^ 4294967295) &&& g)
    let temp1 := (h + S1 + ch + k + w) % M32
    let S0 := (rotr32 a 2) ^^^ (rotr32 a 13) ^^^ (rotr32 a 22)
    let maj := (a &&& b) ^^^ (a &&& c) ^^^ (b &&& c)
    let temp2 := (S0 + maj) % M32
    sha256Rounds rest [(temp1 + temp2) % M32, a, b, c, (d + temp1) % M32, e, f, g]

/-- Process the chunks, folding the running hash. -/
def sha256Chunks : List (List Nat) → List Nat → List Nat
  | [], hs => hs
  | chunk :: rest, hs =>
    let ws := sha256Extend (bytesToWords chunk) 48
    let st := sha256Rounds (sha256K.zip ws) hs
    sha256Chunks rest (List.zipWith (fun a b => (a + b) % M32) hs st)

/-- SHA-256 digest (32 bytes) of a byte list. -/
def sha256Bytes (msg : List Nat) : List Nat :=
  ((sha256Chunks (chunks64 (sha256Pad msg)) sha256H0).map be4).flatten

/-- A lowercase hex digit. -/
def hexDigit (n : Nat) : Char :=
  if n < 10 then Char.ofNat (n + 48) else Char.ofNat (n + 87)

/-- `hashlib.sha256(...).hexdigest()[:16]`. -/
def sha256HexTrunc16 (msg : List Nat) : String :=
  String.mk (((sha256Bytes msg).map (fun b => [hexDigit (b / 16), hexDigit (b % 16)])).flatten.take 16)

/-- UTF-8 encoding of one character. -/
def utf8EncodeChar (c : Char) : List Nat :=
  let n := c.toNat
  if n < 0x80 then [n]
  else if n < 0x800 then [0xC0 ||| (n >>> 6), 0x80 ||| (n &&& 0x3F)]
  else if n < 0x10000 then
    [0xE0 ||| (n >>> 12), 0x80 ||| ((n >>> 6) &&& 0x3F), 0x80 ||| (n &&& 0x3F)]
  else
    [0xF0 ||| (n >>> 18), 0x80 ||| ((n >>> 12) &&& 0x3F),
     0x80 ||| ((n >>> 6) &&& 0x3F), 0x80 ||| (n &&& 0x3F)]

/-- `s.encode("utf-8")`. -/
def utf8Encode (s : String) : List Nat := (s.data.map utf8EncodeChar).flatten

/-- Decimal digit characters of a natural number (`fuel`-structured; any
`fuel > n` is exact). -/
def natRepAux : Nat → Nat → List Char
  | 0, _ => []
  | fuel + 1, n =>
    if n < 10 then [Char.ofNat (n + 48)]
    else natRepAux fuel (n / 10) ++ [Char.ofNat (n % 10 + 48)]

/-- Decimal digit characters of a natural number. -/
def natRep (n : Nat) : List Char := natRepAux (n + 1) n

/-- Python `str(i)` for an `int` (as interpolated by an f-string). -/
def pyIntStr (i : Int) : String :=
  if i < 0 then "-" ++ String.mk (natRep i.natAbs) else String.mk (natRep i.natAbs)

def AMW_BASE : String := "https://amw.com.pl"

/-- The composite-key hash input of amw.py line 95:
`f"{title}|{price_pln or 0}|{auction_date.isoformat() if auction_date else ''}"`. -/
def amwRawId (title : String) (price_pln : Option Int) (auction_date : Option PyDT) : String :=
  title ++ "|" ++ pyIntStr (price_pln.getD 0) ++ "|" ++
    (match auction_date with
     | some d => isoWarsaw d
     | none => "")

/-- amw.py lines 96-97: base URL with the truncated digest as a fragment. -/
def amwSourceUrlOfRaw (raw : String) : String :=
  AMW_BASE ++ "/pl/nieruchomosci/nieruchomosci-amw/#" ++ sha256HexTrunc16 (utf8Encode raw)

/-- The fallback identity `source_url` of an AMW offer. -/
def amwSourceUrl (title : String) (price_pln : Option Int) (auction_date : Option PyDT) :
    String :=
  amwSourceUrlOfRaw (amwRawId title price_pln auction_date)

/-- The data AMW's `_parse_list_page` reads for one `<h2>` offer block: the
`h2` text, the regex-located price / date strings, the `Woj.:` capture and
the joined sibling text (the regex location itself stays on the HTML side of
the cut). -/
structure AmwExtract where
  title : String
  priceStr : Option String
  dateStr : Option String
  region : Option String
  snippet : String
deriving DecidableEq

/-- The offer dict built by AMW's `_parse_list_page` (lines 100-110). -/
structure AmwItem where
  title : String
  description : String
  price_pln : Option Int
  location : String
  city : String
  source_url : String
  auction_date : Option PyDT
  region : Option String
deriving DecidableEq

/-- Per-`<h2>` body of AMW's `_parse_list_page` loop (lines 60-110): header
filters, price/date parsing, hash identity, error-page skip. -/
def amwExtractToItem (ex : AmwExtract) : Option AmwItem :=
  let title := pyStrip ex.title
  if title = "" || title.length < 3 then none
  else if strStarts title "Kategoria" || strContains title "Województwo" ||
      strContains title "Lista" then none
  else
    let price_pln := pricePlnFromText ex.priceStr
    let auction_date := amwParseAuctionDate ex.dateStr
    let city := if strContains title "," then
        pyStrip (String.mk (title.data.takeWhile (· ≠ ','))) else pyStrip title
    if isLikelyErrorPage (some title) none then none
    else some
      { title := "Nieruchomość AMW — " ++ title
      , description := "Powierzchnia / Cena wywoławcza w ofercie AMW. " ++
          String.mk (ex.snippet.data.take 1500)
      , price_pln := price_pln
      , location := title
      , city := city
      , source_url := amwSourceUrl title price_pln auction_date
      , auction_date := auction_date
      , region := ex.region }

/-- The normalized row `scrape_amw` builds from an item (lines 138-150). -/
def amwRowOf (it : AmwItem) : Listing :=
  normalizedListing it.title (some it.description) it.price_pln it.location it.city
    "amw" it.source_url it.auction_date [] it.region

/-- The inner `for item in items` loop of `scrape_amw` (lines 134-153): skip
URLs already seen in this run, else normalize, accumulate, and `return`
immediately once `max_listings` is reached. -/
def amwItemsGo (maxListings : Option Nat) :
    List AmwItem → List String → List Listing → List String × List Listing × Bool
  | [], seen, acc => (seen, acc, false)
  | it :: rest, seen, acc =>
    if it.source_url ∈ seen then amwItemsGo maxListings rest seen acc
    else
      let seen' := it.source_url :: seen
      let acc' := acc ++ [amwRowOf it]
      match maxListings with
      | some m => if m ≤ acc'.length then (seen', acc', true)
                  else amwItemsGo maxListings rest seen' acc'
      | none => amwItemsGo maxListings rest seen' acc'

/-- The `for page in range(max_pages)` loop of `scrape_amw` (lines 125-156);
the flag from the item loop models the mid-page `return results`. -/
def amwPages (maxListings : Option Nat) :
    Nat → List (Option (List AmwExtract)) → List String → List Listing →
    List Listing × Nat
  | 0, _, _, acc => (acc, 0)
  | _ + 1, [], _, acc => (acc, 0)
  | fuel + 1, pg :: rest, seen, acc =>
    match pg with
    | none => (acc, 1)
    | some extracts =>
      let items := extracts.filterMap amwExtractToItem
      if items.isEmpty then (acc, 1)
      else
        match amwItemsGo maxListings items seen acc with
        | (_, acc', true) => (acc', 1)
        | (seen', acc', false) =>
          let r := amwPages maxListings fuel rest seen' acc'
          (r.1, r.2 + 1)

/-- `scrape_amw` (amw.py lines 114-157) over modelled pages. -/
def scrapeAmwModel (cfg : ScrapingConfig) (pages : List (Option (List AmwExtract))) :
    List Listing × Nat :=
  amwPages cfg.max_listings cfg.max_pages_auctions pages [] []

/-! ## Upsert — `src/hunter/supabase_client.py`

A row sent to PostgREST is modelled as its key/value pairs (keys matter for
the schema-mismatch retry; values are opaque strings here).  One call to
`client.table(...).upsert(rows).execute()` is a collaborator whose behaviour
is a function `attempt : rows → Except message count` supplied by the
environment; `Except.error` models a raised exception with `str(e)` as the
message. -/

/-- A serialized row: the dict's key/value pairs. -/
def URow : Type := List (String × String)

instance : DecidableEq URow := by unfold URow; infer_instance

/-- `_rows_without_region` (supabase_client.py lines 25-27). -/
def rowsWithoutRegion (rows : List URow) : List URow :=
  rows.map (fun r => r.filter (fun kv => kv.1 ≠ "region"))

/-- `_rows_without_last_seen_at` (supabase_client.py lines 30-32). -/
def rowsWithoutLastSeenAt (rows : List URow) : List URow :=
  rows.map (fun r => r.filter (fun kv => kv.1 ≠ "last_seen_at"))

/-- `upsert_listings` (supabase_client.py lines 35-79): empty batch returns 0;
a `PGRST204` failure mentioning `region` (resp. `last_seen_at`) retries once
with that key stripped from every row, returning the retry's outcome — a
failing retry propagates, as does any other failure. -/
def upsertListings (attempt : List URow → Except String Nat) (rows : List URow) :
    Except String Nat :=
  if rows.isEmpty then .ok 0
  else
    match attempt rows with
    | .ok n => .ok n
    | .error e =>
      if strContains e "PGRST204" && strContains (pyLower e) "region" then
        attempt (rowsWithoutRegion rows)
      else if strContains e "PGRST204" && strContains (pyLower e) "last_seen_at" then
        attempt (rowsWithoutLastSeenAt rows)
      else .error e

/-! ## Run coordinator — `src/hunter/run.py` `run_scraper` (lines 19-87)

The collaborators of one run are collected in an environment: the scraper
call's outcome, `get_client()`'s outcome (the same at each of its call
sites), the outcome of `upsert_listings` on the prepared rows, and the
outcomes of the run-record writes.  `log_scrape_run` (supabase_client.py
lines 130-159) swallows its own insert failure internally, and the error
branch of `run_scraper` wraps its `get_client` + `log_scrape_run` in a bare
`try`/`except: pass`; both logging outcomes are therefore discarded by the
embedded control flow, exactly like the source. -/

structure RunEnv where
  /-- Outcome of `scrape_fn(cfg)`. -/
  scrapeRes : Except String (List Listing)
  /-- Outcome of `get_client()` (config errors etc.). -/
  getClientRes : Except String Unit
  /-- Outcome of `upsert_listings(client, prepared)` as a function of the
  prepared rows. -/
  upsertRes : List Listing → Except String Nat
  /-- Outcome of the `scrape_runs` insert inside `log_scrape_run` (swallowed
  there). -/
  logInsertRes : Except String Unit
  /-- Outcome of the `get_client()` + `log_scrape_run` block in the error
  branch (swallowed by `except Exception: pass`). -/
  errLogRes : Except String Unit

/-- `log_scrape_run`: best-effort — any failure is caught and logged,
never raised. -/
def logScrapeRunModel (_res : Except String Unit) : Unit := ()

/-- `run_scraper(name, scrape_fn, config, dry_run)` returning
`(listings_found, listings_upserted, status, error_message)`. -/
def runScraperModel (env : RunEnv) (dryRun : Bool) : Nat × Nat × String × Option String :=
  match env.scrapeRes with
  | .error e =>
    -- `except Exception as e` with listings_found/listings_upserted still 0
    if dryRun then (0, 0, "error", some e)
    else
      let _ := env.errLogRes
      (0, 0, "error", some e)
  | .ok rows =>
    if dryRun then (rows.length, 0, "success", none)
    else if rows.isEmpty then
      match env.getClientRes with
      | .error e =>
        let _ := env.errLogRes
        (0, 0, "error", some e)
      | .ok _ =>
        let _ := logScrapeRunModel env.logInsertRes
        (0, 0, "success", none)
    else
      let rowsClean := rows.filter
        (fun r => ¬ isLikelyErrorPage (some r.title) r.description)
      let prepared := rowsClean.map forSupabase
      match env.getClientRes with
      | .error e =>
        let _ := env.errLogRes
        (rows.length, 0, "error", some e)
      | .ok _ =>
        match env.upsertRes prepared with
        | .error e =>
          let _ := env.errLogRes
          (rows.length, 0, "error", some e)
        | .ok n =>
          let _ := logScrapeRunModel env.logInsertRes
          (rows.length, n, "success", none)

/-! ## Specification-side auxiliary definitions

These definitions are not translations of source code; they name the
quantities the theorems below talk about (the stream of successfully parsed
detail rows of a crawl, the cutoff-keep predicate, well-formedness of a page,
and a positional decoder used to prove `isoWarsaw` injective). -/

/-- The rows a komornik page contributes (successful detail parses, with the
region backfill applied), in order. -/
def keptRowsK (items : List KPageItem) : List Listing :=
  items.filterMap (fun it => it.outcome.map (applyRegionBackfill it))

/-- The row stream of a whole komornik crawl input. -/
def flatKeptK (pages : List (Option (List KPageItem))) : List Listing :=
  (pages.map (fun pg => keptRowsK (pg.getD []))).flatten

/-- The rows an elicytacje page contributes. -/
def keptRowsE (items : List (Option Listing)) : List Listing := items.filterMap id

/-- The row stream of a whole elicytacje crawl input. -/
def flatKeptE (pages : List (Option (List (Option Listing)))) : List Listing :=
  (pages.map (fun pg => keptRowsE (pg.getD []))).flatten

/-- A row survives the cutoff check. -/
def keepRow (parseIso : String → Option Int) (cutoff : Option Int) (r : Listing) : Bool :=
  ! cutoffHit parseIso cutoff r.auction_date

/-- The UTC instant the crawl's cutoff check reads off a row (`none` when the
stored date is absent, blank, or fails to parse back). -/
def adUTC (parseIso : String → Option Int) (r : Listing) : Option Int :=
  match r.auction_date with
  | some s => if s = "" then none else parseIso s
  | none => none

/-- `a`'s auction instant is at least `b`'s (vacuously true when either is
unavailable): the pairwise form of "date-descending". -/
def dateGE (parseIso : String → Option Int) (a b : Listing) : Bool :=
  match adUTC parseIso a, adUTC parseIso b with
  | some ta, some tb => tb ≤ ta
  | _, _ => true

/-- A page that was fetched successfully and is non-empty (the two conditions
under which pagination continues). -/
def pageOk {α : Type} (pg : Option (List α)) : Bool :=
  match pg with
  | some (_ :: _) => true
  | _ => false

/-- Positional decoder for `isoWarsaw` output (year at 0-3, month at 5-6, day
at 8-9, hour at 11-12, minute at 14-15); used only to prove injectivity. -/
def isoDecode : List Char → PyDT
  | y1 :: y2 :: y3 :: y4 :: _ :: m1 :: m2 :: _ :: d1 :: d2 :: _ :: h1 :: h2 :: _ :: mi1 :: mi2 :: _ =>
    { year := 1000 * dval y1 + 100 * dval y2 + 10 * dval y3 + dval y4
    , month := 10 * dval m1 + dval m2
    , day := 10 * dval d1 + dval d2
    , hour := 10 * dval h1 + dval h2
    , minute := 10 * dval mi1 + dval mi2 }
  | _ => ⟨0, 0, 0, 0, 0⟩

/-- Validity of an optional datetime. -/
def optValidDT (d : Option PyDT) : Bool :=
  match d with
  | some x => validDT x
  | none => true

/-- The date component of the AMW hash input:
`auction_date.isoformat() if auction_date else ''`. -/
def isoOfOpt (d : Option PyDT) : String :=
  match d with
  | some x => isoWarsaw x
  | none => ""

/-- View an elicytacje page item as a komornik page item without URL or
region; the two inner crawl loops differ only by the region backfill and the
`max_listings` check, so elicytacje's loop coincides with komornik's under
this embedding (proved below). -/
def eLift (o : Option Listing) : KPageItem := { url := "", region := none, outcome := o }

/-- The page-level version of `eLift`. -/
def eLiftPages (pages : List (Option (List (Option Listing)))) :
    List (Option (List KPageItem)) :=
  pages.map (Option.map (List.map eLift))

/-! ## Helper lemmas -/

theorem aux_takeWhile_append_of_all {α : Type} (p : α → Bool) :
    ∀ (l₁ l₂ : List α), (∀ x ∈ l₁, p x = true) →
      (l₁ ++ l₂).takeWhile p = l₁ ++ l₂.takeWhile p := by
  intro l₁ l₂ h
  induction l₁ with
  | nil => simp
  | cons a l ih =>
    have ha : p a = true := h a (by simp)
    simp [List.takeWhile_cons, ha]
    exact ih (fun x hx => h x (by simp [hx]))

theorem aux_takeWhile_append_of_stop {α : Type} (p : α → Bool) :
    ∀ (l₁ l₂ : List α), (∃ x ∈ l₁, p x = false) →
      (l₁ ++ l₂).takeWhile p = l₁.takeWhile p := by
  intro l₁ l₂ h
  induction l₁ with
  | nil => simp at h
  | cons a l ih =>
    by_cases ha : p a = true
    · simp only [List.cons_append, List.takeWhile_cons, ha, if_true]
      obtain ⟨x, hx, hpx⟩ := h
      rw [List.mem_cons] at hx
      rcases hx with rfl | hx
      · rw [ha] at hpx; cases hpx
      · rw [ih ⟨x, hx, hpx⟩]
    · have ha' : p a = false := by revert ha; cases p a <;> simp
      simp [List.takeWhile_cons, ha']

theorem aux_takeWhile_of_all {α : Type} (p : α → Bool) (l : List α)
    (h : ∀ x ∈ l, p x = true) : l.takeWhile p = l := by
  have := aux_takeWhile_append_of_all p l [] h
  simpa using this

theorem aux_takeWhile_eq_filter_of_mono {α : Type} (p : α → Bool) :
    ∀ l : List α, l.Pairwise (fun a b => p b = true → p a = true) →
      l.takeWhile p = l.filter p := by
  intro l h
  induction l with
  | nil => rfl
  | cons a xs ih =>
    rw [List.pairwise_cons] at h
    by_cases ha : p a = true
    · simp [List.takeWhile_cons, List.filter_cons, ha, ih h.2]
    · have ha' : p a = false := by revert ha; cases p a <;> simp
      have hxs : xs.filter p = [] := by
        rw [List.filter_eq_nil_iff]
        intro y hy hpy
        exact ha (h.1 y hy hpy)
      simp [List.takeWhile_cons, List.filter_cons, ha', hxs]

theorem aux_strMk_append (a b : List Char) : String.mk a ++ String.mk b = String.mk (a ++ b) := rfl

theorem aux_strData_append (s t : String) : (s ++ t).data = s.data ++ t.data := by
  cases s; cases t; rfl

theorem aux_strData_inj {s t : String} (h : s.data = t.data) : s = t :=
  congrArg String.mk h

theorem aux_listStarts_append_self : ∀ (l rest : List Char), listStarts l (l ++ rest) = true := by
  intro l rest
  induction l with
  | nil => rfl
  | cons a as ih => simp [listStarts, ih]

theorem aux_listStarts_ne_nil {pat txt : List Char} (hp : pat ≠ [])
    (h : listStarts pat txt = true) : txt ≠ [] := by
  cases pat with
  | nil => exact absurd rfl hp
  | cons a as => cases txt with
    | nil => simp [listStarts] at h
    | cons b bs => simp

theorem aux_listHasSub_ne_nil {pat txt : List Char} (hp : pat ≠ [])
    (h : listHasSub pat txt = true) : txt ≠ [] := by
  cases txt with
  | nil =>
    cases pat with
    | nil => exact absurd rfl hp
    | cons a as => simp [listHasSub, listStarts] at h
  | cons b bs => simp

theorem aux_strContains_ne_empty {txt pat : String} (hp : pat ≠ "")
    (h : strContains txt pat = true) : txt ≠ "" := by
  intro he
  subst he
  have hpd : pat.data ≠ [] := by
    intro hd
    exact hp (@aux_strData_inj pat "" hd)
  exact aux_listHasSub_ne_nil hpd h rfl

theorem aux_dval_digit : ∀ m : Nat, m ≤ 9 → dval (Char.ofNat (m + 48)) = m := by
  intro m hm
  interval_cases m <;> decide

theorem aux_digitsValNat_append_one (l : List Char) (c : Char) :
    digitsValNat (l ++ [c]) = 10 * digitsValNat l + dval c := by
  simp [digitsValNat, List.foldl_append]

theorem aux_natRepAux_val : ∀ (fuel n : Nat), n < fuel →
    digitsValNat (natRepAux fuel n) = n := by
  intro fuel
  induction fuel with
  | zero => intro n h; omega
  | succ f ih =>
    intro n h
    by_cases h10 : n < 10
    · simp [natRepAux, h10, digitsValNat]
      rw [aux_dval_digit n (by omega)]
    · have hrec : n / 10 < f := by
        have h1 : n / 10 < n := Nat.div_lt_self (by omega) (by omega)
        omega
      simp only [natRepAux, h10, if_false]
      rw [aux_digitsValNat_append_one, ih (n / 10) hrec,
        aux_dval_digit (n % 10) (by omega)]
      omega

theorem aux_natRep_val (n : Nat) : digitsValNat (natRep n) = n :=
  aux_natRepAux_val (n + 1) n (Nat.lt_succ_self n)

theorem aux_natRep_inj {a b : Nat} (h : natRep a = natRep b) : a = b := by
  have := congrArg digitsValNat h
  rwa [aux_natRep_val, aux_natRep_val] at this

theorem aux_natRepAux_digits : ∀ (fuel n : Nat) (c : Char), c ∈ natRepAux fuel n →
    ∃ m : Nat, m ≤ 9 ∧ c = Char.ofNat (m + 48) := by
  intro fuel
  induction fuel with
  | zero => intro n c h; simp [natRepAux] at h
  | succ f ih =>
    intro n c h
    by_cases h10 : n < 10
    · simp [natRepAux, h10] at h
      exact ⟨n, by omega, h⟩
    · simp only [natRepAux, h10, if_false, List.mem_append, List.mem_singleton] at h
      rcases h with h | h
      · exact ih (n / 10) c h
      · exact ⟨n % 10, by omega, h⟩

theorem aux_natRep_ne_nil (n : Nat) : natRep n ≠ [] := by
  unfold natRep natRepAux
  by_cases h10 : n < 10 <;> simp [h10]

theorem aux_dash_not_digitChar : ∀ m : Nat, m ≤ 9 → ('-' : Char) ≠ Char.ofNat (m + 48) := by
  intro m hm
  interval_cases m <;> decide

theorem aux_pyIntStr_data (i : Int) :
    (pyIntStr i).data = (if i < 0 then ['-'] else []) ++ natRep i.natAbs := by
  unfold pyIntStr
  by_cases hi : i < 0 <;> simp [hi, aux_strData_append]

theorem aux_pyIntStr_inj : ∀ a b : Int, pyIntStr a = pyIntStr b → a = b := by
  intro a b h
  have hd := congrArg String.data h
  rw [aux_pyIntStr_data, aux_pyIntStr_data] at hd
  by_cases ha : a < 0 <;> by_cases hb : b < 0 <;>
    simp only [ha, hb, if_true, if_false, List.cons_append, List.nil_append] at hd
  · have h2 : natRep a.natAbs = natRep b.natAbs := by
      rw [List.cons.injEq] at hd
      exact hd.2
    have := aux_natRep_inj h2
    omega
  · exfalso
    cases hrep : natRep b.natAbs with
    | nil => exact aux_natRep_ne_nil _ hrep
    | cons c cs =>
      rw [hrep, List.cons.injEq] at hd
      obtain ⟨m, hm, hcm⟩ := aux_natRepAux_digits (b.natAbs + 1) b.natAbs c
        (show c ∈ natRep b.natAbs by rw [hrep]; simp)
      exact aux_dash_not_digitChar m hm (hd.1.trans hcm)
  · exfalso
    cases hrep : natRep a.natAbs with
    | nil => exact aux_natRep_ne_nil _ hrep
    | cons c cs =>
      rw [hrep, List.cons.injEq] at hd
      obtain ⟨m, hm, hcm⟩ := aux_natRepAux_digits (a.natAbs + 1) a.natAbs c
        (show c ∈ natRep a.natAbs by rw [hrep]; simp)
      exact aux_dash_not_digitChar m hm (hd.1.symm.trans hcm)
  · have := aux_natRep_inj hd
    omega

theorem aux_isoDecode_round (dt : PyDT) (h : validDT dt = true) :
    isoDecode (isoWarsaw dt).data = dt := by
  have hb : 1 ≤ dt.year ∧ dt.year ≤ 9999 ∧ 1 ≤ dt.month ∧ dt.month ≤ 12 ∧
      1 ≤ dt.day ∧ dt.day ≤ daysInMonth dt.year dt.month ∧ dt.hour ≤ 23 ∧ dt.minute ≤ 59 := by
    simp [validDT] at h
    tauto
  have hday : dt.day ≤ 31 := by
    have := hb.2.2.2.2.2.1
    have hm : daysInMonth dt.year dt.month ≤ 31 := by
      unfold daysInMonth
      split
      · split <;> omega
      · split <;> omega
    omega
  show isoDecode (pad4 dt.year ++ '-' :: pad2 dt.month ++ '-' :: pad2 dt.day ++
    'T' :: pad2 dt.hour ++ ':' :: pad2 dt.minute ++ (':' :: '0' :: '0' :: []) ++
    (if isWarsawSummer dt then ['+', '0', '2', ':', '0', '0'] else ['+', '0', '1', ':', '0', '0'])) = dt
  simp only [pad4, pad2, List.cons_append, List.nil_append, isoDecode]
  have e1 := aux_dval_digit ((dt.year / 1000) % 10) (by omega)
  have e2 := aux_dval_digit ((dt.year / 100) % 10) (by omega)
  have e3 := aux_dval_digit ((dt.year / 10) % 10) (by omega)
  have e4 := aux_dval_digit (dt.year % 10) (by omega)
  have e5 := aux_dval_digit ((dt.month / 10) % 10) (by omega)
  have e6 := aux_dval_digit (dt.month % 10) (by omega)
  have e7 := aux_dval_digit ((dt.day / 10) % 10) (by omega)
  have e8 := aux_dval_digit (dt.day % 10) (by omega)
  have e9 := aux_dval_digit ((dt.hour / 10) % 10) (by omega)
  have e10 := aux_dval_digit (dt.hour % 10) (by omega)
  have e11 := aux_dval_digit ((dt.minute / 10) % 10) (by omega)
  have e12 := aux_dval_digit (dt.minute % 10) (by omega)
  rw [e1, e2, e3, e4, e5, e6, e7, e8, e9, e10, e11, e12]
  obtain ⟨y, m, d, hh, mi⟩ := dt
  simp only [PyDT.mk.injEq]
  simp only at hb hday
  refine ⟨by omega, by omega, by omega, by omega, by omega⟩

theorem aux_isoWarsaw_inj {d₁ d₂ : PyDT} (h₁ : validDT d₁ = true) (h₂ : validDT d₂ = true)
    (h : isoWarsaw d₁ = isoWarsaw d₂) : d₁ = d₂ := by
  have := congrArg (fun s => isoDecode (String.data s)) h
  simp only at this
  rwa [aux_isoDecode_round d₁ h₁, aux_isoDecode_round d₂ h₂] at this

theorem aux_isoWarsaw_ne_empty (dt : PyDT) : isoWarsaw dt ≠ "" := by
  intro h
  have := congrArg String.data h
  simp only [isoWarsaw, pad4, List.cons_append] at this
  cases this

theorem aux_dedup_notin_seen (key : KItem → String) :
    ∀ (l : List KItem) (seen : List String),
      ∀ x ∈ dedupByKey key seen l, key x ∉ seen := by
  intro l
  induction l with
  | nil => intro seen x hx; simp [dedupByKey] at hx
  | cons a as ih =>
    intro seen x hx
    unfold dedupByKey at hx
    by_cases hk : key a ∈ seen
    · simp only [hk, if_true] at hx
      exact ih seen x hx
    · simp only [hk, if_false, List.mem_cons] at hx
      rcases hx with rfl | hx
      · exact hk
      · have := ih (key a :: seen) x hx
        intro hc
        exact this (by simp [hc])

theorem aux_dedup_nodup (key : KItem → String) :
    ∀ (l : List KItem) (seen : List String),
      ((dedupByKey key seen l).map key).Nodup := by
  intro l
  induction l with
  | nil => intro seen; simp [dedupByKey]
  | cons a as ih =>
    intro seen
    unfold dedupByKey
    by_cases hk : key a ∈ seen
    · simp only [hk, if_true]
      exact ih seen
    · simp only [hk, if_false, List.map_cons, List.nodup_cons]
      refine ⟨?_, ih (key a :: seen)⟩
      intro hmem
      rw [List.mem_map] at hmem
      obtain ⟨y, hy, hky⟩ := hmem
      have := aux_dedup_notin_seen key as (key a :: seen) y hy
      exact this (by simp [hky])

theorem aux_dedup_sublist (key : KItem → String) :
    ∀ (l : List KItem) (seen : List String), (dedupByKey key seen l).Sublist l := by
  intro l
  induction l with
  | nil => intro seen; simp [dedupByKey]
  | cons a as ih =>
    intro seen
    unfold dedupByKey
    by_cases hk : key a ∈ seen
    · simp only [hk, if_true]
      exact (ih seen).cons a
    · simp only [hk, if_false]
      exact (ih (key a :: seen)).cons₂ a

theorem aux_dedup_covers (key : KItem → String) :
    ∀ (l : List KItem) (seen : List String) (x : KItem), x ∈ l → key x ∉ seen →
      ∃ y ∈ dedupByKey key seen l, key y = key x := by
  intro l
  induction l with
  | nil => intro seen x hx; simp at hx
  | cons a as ih =>
    intro seen x hx hns
    rw [List.mem_cons] at hx
    unfold dedupByKey
    by_cases hk : key a ∈ seen
    · simp only [hk, if_true]
      rcases hx with rfl | hx
      · exact absurd hk hns
      · exact ih seen x hx hns
    · simp only [hk, if_false]
      rcases hx with rfl | hx
      · exact ⟨x, by simp, rfl⟩
      · by_cases hax : key x = key a
        · exact ⟨a, by simp, hax.symm⟩
        · obtain ⟨y, hy, hky⟩ := ih (key a :: seen) x hx (by simp [hax, hns])
          exact ⟨y, by simp [hy], hky⟩

theorem aux_dedup_first_wins (key : KItem → String) :
    ∀ (l : List KItem) (seen : List String) (x : KItem), x ∈ dedupByKey key seen l →
      ∃ p q, l = p ++ x :: q ∧ ∀ y ∈ p, key y ∈ seen ∨ key y ≠ key x := by
  intro l
  induction l with
  | nil => intro seen x hx; simp [dedupByKey] at hx
  | cons a as ih =>
    intro seen x hx
    unfold dedupByKey at hx
    by_cases hk : key a ∈ seen
    · simp only [hk, if_true] at hx
      obtain ⟨p, q, hpq, hp⟩ := ih seen x hx
      exact ⟨a :: p, q, by simp [hpq], by
        intro y hy
        rw [List.mem_cons] at hy
        rcases hy with rfl | hy
        · exact Or.inl hk
        · exact hp y hy⟩
    · simp only [hk, if_false, List.mem_cons] at hx
      rcases hx with rfl | hx
      · exact ⟨[], as, rfl, by simp⟩
      · obtain ⟨p, q, hpq, hp⟩ := ih (key a :: seen) x hx
        have hxk : key x ∉ key a :: seen := aux_dedup_notin_seen key as (key a :: seen) x hx
        refine ⟨a :: p, q, by simp [hpq], ?_⟩
        intro y hy
        rw [List.mem_cons] at hy
        rcases hy with rfl | hy
        · right
          intro hc
          exact hxk (by simp [hc])
        · rcases hp y hy with hin | hne
          · rw [List.mem_cons] at hin
            rcases hin with heq | hin
            · right
              intro hc
              exact hxk (by simp [← hc, heq])
            · exact Or.inl hin
          · exact Or.inr hne

theorem aux_backfill_ad (it : KPageItem) (row : Listing) :
    (applyRegionBackfill it row).auction_date = row.auction_date := by
  unfold applyRegionBackfill
  cases it.region <;> rfl

theorem aux_cutoffHit_none (parse : String → Option Int) (ad : Option String) :
    cutoffHit parse none ad = false := rfl

theorem aux_keptK_nil : keptRowsK [] = [] := rfl

theorem aux_keptK_cons_none (it : KPageItem) (rest : List KPageItem) (h : it.outcome = none) :
    keptRowsK (it :: rest) = keptRowsK rest := by
  simp [keptRowsK, List.filterMap_cons, h]

theorem aux_keptK_cons_some (it : KPageItem) (rest : List KPageItem) (row : Listing)
    (h : it.outcome = some row) :
    keptRowsK (it :: rest) = applyRegionBackfill it row :: keptRowsK rest := by
  simp [keptRowsK, List.filterMap_cons, h]

theorem aux_flatK_cons (pg : Option (List KPageItem)) (rest : List (Option (List KPageItem))) :
    flatKeptK (pg :: rest) = keptRowsK (pg.getD []) ++ flatKeptK rest := by
  simp [flatKeptK]

theorem aux_flatK_nil : flatKeptK [] = [] := rfl

theorem aux_komItems_none_spec (parse : String → Option Int) (co : Option Int) :
    ∀ (items : List KPageItem) (acc : List Listing),
      komornikItems parse co none items acc =
        (acc ++ (keptRowsK items).takeWhile (keepRow parse co),
         (keptRowsK items).any (fun r => cutoffHit parse co r.auction_date)) := by
  intro items
  induction items with
  | nil => intro acc; simp [komornikItems, aux_keptK_nil]
  | cons it rest ih =>
    intro acc
    unfold komornikItems
    cases hout : it.outcome with
    | none =>
      simp only [hout]
      rw [ih acc, aux_keptK_cons_none it rest hout]
    | some row0 =>
      simp only [hout]
      rw [aux_keptK_cons_some it rest row0 hout]
      by_cases hhit : cutoffHit parse co (applyRegionBackfill it row0).auction_date = true
      · have hkeep : keepRow parse co (applyRegionBackfill it row0) = false := by
          simp [keepRow, hhit]
        simp [hhit, hkeep, List.takeWhile_cons, List.any_cons]
      · have hhit' : cutoffHit parse co (applyRegionBackfill it row0).auction_date = false := by
          revert hhit; cases cutoffHit parse co (applyRegionBackfill it row0).auction_date <;> simp
        have hkeep : keepRow parse co (applyRegionBackfill it row0) = true := by
          simp [keepRow, hhit']
        simp only [hhit', Bool.false_eq_true, if_false, List.takeWhile_cons, hkeep, if_true,
          List.any_cons, Bool.false_or]
        rw [ih (acc ++ [applyRegionBackfill it row0])]
        simp

theorem aux_komPages_nohit (parse : String → Option Int) (co : Option Int) :
    ∀ (pages : List (Option (List KPageItem))) (fuel : Nat) (acc : List Listing),
      pages.all pageOk = true → pages.length ≤ fuel →
      (∀ r ∈ flatKeptK pages, cutoffHit parse co r.auction_date = false) →
      komornikPages parse co none fuel pages acc = (acc ++ flatKeptK pages, pages.length) := by
  intro pages
  induction pages with
  | nil =>
    intro fuel acc _ _ _
    cases fuel <;> simp [komornikPages, aux_flatK_nil]
  | cons pg rest ih =>
    intro fuel acc hok hlen hnone
    rw [List.all_cons, Bool.and_eq_true] at hok
    cases fuel with
    | zero => simp at hlen
    | succ f =>
      cases pg with
      | none => simp [pageOk] at hok
      | some items =>
        cases items with
        | nil => simp [pageOk] at hok
        | cons i is =>
          have hpage_rows : ∀ r ∈ keptRowsK (i :: is), cutoffHit parse co r.auction_date = false := by
            intro r hr
            exact hnone r (by rw [aux_flatK_cons]; simp [hr])
          have hflag : (keptRowsK (i :: is)).any (fun r => cutoffHit parse co r.auction_date) = false := by
            rw [List.any_eq_false]
            intro r hr
            simp [hpage_rows r hr]
          have htw : (keptRowsK (i :: is)).takeWhile (keepRow parse co) = keptRowsK (i :: is) :=
            aux_takeWhile_of_all _ _ (fun r hr => by simp [keepRow, hpage_rows r hr])
          have hitems := aux_komItems_none_spec parse co (i :: is) acc
          rw [hflag, htw] at hitems
          have hrec := ih f (acc ++ keptRowsK (i :: is)) hok.2 (by simpa using hlen)
            (fun r hr => hnone r (by rw [aux_flatK_cons]; simp [hr]))
          simp only [komornikPages, List.isEmpty_cons, Bool.false_eq_true, if_false, hitems, hrec]
          rw [aux_flatK_cons]
          simp [List.append_assoc]

theorem aux_komPages_hit (parse : String → Option Int) (co : Option Int) :
    ∀ (pre : List (Option (List KPageItem))) (pg : List KPageItem)
      (post : List (Option (List KPageItem))) (fuel : Nat) (acc : List Listing),
      pre.all pageOk = true → pre.length + 1 ≤ fuel → pg ≠ [] →
      (∀ r ∈ flatKeptK pre, cutoffHit parse co r.auction_date = false) →
      (keptRowsK pg).any (fun r => cutoffHit parse co r.auction_date) = true →
      komornikPages parse co none fuel (pre ++ some pg :: post) acc =
        (acc ++ flatKeptK pre ++ (keptRowsK pg).takeWhile (keepRow parse co),
         pre.length + 1) := by
  intro pre
  induction pre with
  | nil =>
    intro pg post fuel acc _ hlen hne hpre hany
    cases fuel with
    | zero => simp at hlen
    | succ f =>
      cases pg with
      | nil => exact absurd rfl hne
      | cons i is =>
        have hitems := aux_komItems_none_spec parse co (i :: is) acc
        rw [hany] at hitems
        simp only [List.nil_append, komornikPages, List.isEmpty_cons, Bool.false_eq_true,
          if_false, hitems]
        simp [aux_flatK_nil]
  | cons p pre' ih =>
    intro pg post fuel acc hok hlen hne hpre hany
    rw [List.all_cons, Bool.and_eq_true] at hok
    cases fuel with
    | zero => simp at hlen
    | succ f =>
      cases p with
      | none => simp [pageOk] at hok
      | some items =>
        cases items with
        | nil => simp [pageOk] at hok
        | cons i is =>
          have hpage_rows : ∀ r ∈ keptRowsK (i :: is), cutoffHit parse co r.auction_date = false := by
            intro r hr
            exact hpre r (by rw [aux_flatK_cons]; simp [hr])
          have hflag : (keptRowsK (i :: is)).any (fun r => cutoffHit parse co r.auction_date) = false := by
            rw [List.any_eq_false]
            intro r hr
            simp [hpage_rows r hr]
          have htw : (keptRowsK (i :: is)).takeWhile (keepRow parse co) = keptRowsK (i :: is) :=
            aux_takeWhile_of_all _ _ (fun r hr => by simp [keepRow, hpage_rows r hr])
          have hitems := aux_komItems_none_spec parse co (i :: is) acc
          rw [hflag, htw] at hitems
          have hrec := ih pg post f (acc ++ keptRowsK (i :: is)) hok.2 (by simpa using hlen) hne
            (fun r hr => hpre r (by rw [aux_flatK_cons]; simp [hr])) hany
          simp only [List.cons_append, komornikPages, List.isEmpty_cons, Bool.false_eq_true,
            if_false, hitems, Prod.mk.injEq, List.append_eq]
          rw [hrec]
          simp [aux_flatK_cons, List.append_assoc]

theorem aux_komItems_ext (parse : String → Option Int) (co : Option Int) (maxL : Option Nat) :
    ∀ (items : List KPageItem) (acc : List Listing),
      ∃ t, (komornikItems parse co maxL items acc).1 = acc ++ t := by
  intro items
  induction items with
  | nil => intro acc; exact ⟨[], by simp [komornikItems]⟩
  | cons it rest ih =>
    intro acc
    unfold komornikItems
    cases hout : it.outcome with
    | none => simpa using ih acc
    | some row0 =>
      simp only
      by_cases hhit : cutoffHit parse co (applyRegionBackfill it row0).auction_date = true
      · exact ⟨[], by simp [hhit]⟩
      · have hhit' : cutoffHit parse co (applyRegionBackfill it row0).auction_date = false := by
          revert hhit; cases cutoffHit parse co (applyRegionBackfill it row0).auction_date <;> simp
        simp only [hhit', Bool.false_eq_true, if_false]
        cases maxL with
        | none =>
          obtain ⟨t, ht⟩ := ih (acc ++ [applyRegionBackfill it row0])
          exact ⟨[applyRegionBackfill it row0] ++ t, by simp [ht]⟩
        | some m =>
          by_cases hcap : m ≤ acc.length + 1
          · exact ⟨[applyRegionBackfill it row0], by simp [hcap]⟩
          · obtain ⟨t, ht⟩ := ih (acc ++ [applyRegionBackfill it row0])
            exact ⟨[applyRegionBackfill it row0] ++ t, by simp [hcap, ht]⟩

theorem aux_komPages_ext (parse : String → Option Int) (co : Option Int) (maxL : Option Nat) :
    ∀ (pages : List (Option (List KPageItem))) (fuel : Nat) (acc : List Listing),
      ∃ t, (komornikPages parse co maxL fuel pages acc).1 = acc ++ t := by
  intro pages
  induction pages with
  | nil =>
    intro fuel acc
    cases fuel <;> exact ⟨[], by simp [komornikPages]⟩
  | cons pg rest ih =>
    intro fuel acc
    cases fuel with
    | zero => exact ⟨[], by simp [komornikPages]⟩
    | succ f =>
      cases pg with
      | none => exact ⟨[], by simp [komornikPages]⟩
      | some items =>
        by_cases hempty : items.isEmpty = true
        · exact ⟨[], by simp [komornikPages, hempty]⟩
        · obtain ⟨t, ht⟩ := aux_komItems_ext parse co maxL items acc
          rcases hres : komornikItems parse co maxL items acc with ⟨acc', flag⟩
          rw [hres] at ht
          cases flag with
          | true =>
            refine ⟨t, ?_⟩
            simp only [komornikPages, hempty, Bool.false_eq_true, if_false, hres]
            exact ht
          | false =>
            obtain ⟨t2, ht2⟩ := ih f acc'
            refine ⟨t ++ t2, ?_⟩
            simp only [komornikPages, hempty, Bool.false_eq_true, if_false, hres]
            rw [ht2]
            have ht' : acc' = acc ++ t := ht
            rw [ht', List.append_assoc]

theorem aux_komItems_cap (parse : String → Option Int) (co : Option Int) (m : Nat) :
    ∀ (items : List KPageItem) (acc : List Listing), acc.length < m →
      komornikItems parse co (some m) items acc =
        (((komornikItems parse co none items acc).1).take m,
         if m ≤ ((komornikItems parse co none items acc).1).length then true
         else (komornikItems parse co none items acc).2) := by
  intro items
  induction items with
  | nil =>
    intro acc hacc
    simp only [komornikItems]
    rw [List.take_of_length_le (by omega), if_neg (by omega)]
  | cons it rest ih =>
    intro acc hacc
    cases hout : it.outcome with
    | none =>
      have hl : komornikItems parse co (some m) (it :: rest) acc =
          komornikItems parse co (some m) rest acc := by
        simp [komornikItems, hout]
      have hr : komornikItems parse co none (it :: rest) acc =
          komornikItems parse co none rest acc := by
        simp [komornikItems, hout]
      rw [hl, hr]
      exact ih acc hacc
    | some row0 =>
      by_cases hhit : cutoffHit parse co (applyRegionBackfill it row0).auction_date = true
      · have hl : komornikItems parse co (some m) (it :: rest) acc = (acc, true) := by
          simp [komornikItems, hout, hhit]
        have hr : komornikItems parse co none (it :: rest) acc = (acc, true) := by
          simp [komornikItems, hout, hhit]
        rw [hl, hr]
        simp only
        rw [List.take_of_length_le (by omega)]
        split <;> rfl
      · have hhit' : cutoffHit parse co (applyRegionBackfill it row0).auction_date = false := by
          revert hhit; cases cutoffHit parse co (applyRegionBackfill it row0).auction_date <;> simp
        have hr : komornikItems parse co none (it :: rest) acc =
            komornikItems parse co none rest (acc ++ [applyRegionBackfill it row0]) := by
          simp [komornikItems, hout, hhit']
        by_cases hcap : m ≤ acc.length + 1
        · have hl : komornikItems parse co (some m) (it :: rest) acc =
              (acc ++ [applyRegionBackfill it row0], true) := by
            simp [komornikItems, hout, hhit', hcap]
          rw [hl, hr]
          obtain ⟨t, ht⟩ := aux_komItems_ext parse co none rest (acc ++ [applyRegionBackfill it row0])
          rw [ht]
          have hlen : (acc ++ [applyRegionBackfill it row0]).length = m := by
            simp; omega
          rw [List.take_append_eq_append_take, hlen]
          simp only [Nat.sub_self, List.take_zero, List.append_nil,
            List.take_of_length_le (le_of_eq hlen)]
          rw [if_pos (by simp [hlen]; omega)]
        · have hl : komornikItems parse co (some m) (it :: rest) acc =
              komornikItems parse co (some m) rest (acc ++ [applyRegionBackfill it row0]) := by
            simp [komornikItems, hout, hhit', hcap]
          rw [hl, hr]
          exact ih (acc ++ [applyRegionBackfill it row0]) (by simp; omega)

theorem aux_komPages_cap (parse : String → Option Int) (co : Option Int) (m : Nat) :
    ∀ (pages : List (Option (List KPageItem))) (fuel : Nat) (acc : List Listing),
      acc.length < m →
      (komornikPages parse co (some m) fuel pages acc).1 =
        ((komornikPages parse co none fuel pages acc).1).take m := by
  intro pages
  induction pages with
  | nil =>
    intro fuel acc hacc
    cases fuel <;> simp [komornikPages, List.take_of_length_le (by omega : acc.length ≤ m)]
  | cons pg rest ih =>
    intro fuel acc hacc
    cases fuel with
    | zero => simp [komornikPages, List.take_of_length_le (by omega : acc.length ≤ m)]
    | succ f =>
      cases pg with
      | none => simp [komornikPages, List.take_of_length_le (by omega : acc.length ≤ m)]
      | some items =>
        by_cases hempty : items.isEmpty = true
        · simp [komornikPages, hempty, List.take_of_length_le (by omega : acc.length ≤ m)]
        · have hcapres := aux_komItems_cap parse co m items acc hacc
          rcases hu : komornikItems parse co none items acc with ⟨u1, u2⟩
          rw [hu] at hcapres
          simp only at hcapres
          cases u2 with
          | true =>
            have hflag : (if m ≤ u1.length then true else true) = true := by split <;> rfl
            rw [hflag] at hcapres
            simp only [komornikPages, hempty, Bool.false_eq_true, if_false, hu, hcapres]
          | false =>
            by_cases hreach : m ≤ u1.length
            · rw [if_pos hreach] at hcapres
              simp only [komornikPages, hempty, Bool.false_eq_true, if_false, hu, hcapres]
              obtain ⟨t, ht⟩ := aux_komPages_ext parse co none rest f u1
              rw [ht, List.take_append_eq_append_take]
              have : m - u1.length = 0 := by omega
              rw [this]
              simp
            · rw [if_neg hreach] at hcapres
              have hu1 : u1.take m = u1 := List.take_of_length_le (by omega)
              rw [hu1] at hcapres
              simp only [komornikPages, hempty, Bool.false_eq_true, if_false, hu, hcapres]
              exact ih f u1 (by omega)

theorem aux_komItems_capPass (parse : String → Option Int) (m : Nat) :
    ∀ (items : List KPageItem) (acc : List Listing),
      acc.length + (keptRowsK items).length < m →
      komornikItems parse none (some m) items acc = (acc ++ keptRowsK items, false) := by
  intro items
  induction items with
  | nil => intro acc _; simp [komornikItems, aux_keptK_nil]
  | cons it rest ih =>
    intro acc hlt
    cases hout : it.outcome with
    | none =>
      rw [aux_keptK_cons_none it rest hout] at hlt ⊢
      have hl : komornikItems parse none (some m) (it :: rest) acc =
          komornikItems parse none (some m) rest acc := by
        simp [komornikItems, hout]
      rw [hl]
      exact ih acc hlt
    | some row0 =>
      rw [aux_keptK_cons_some it rest row0 hout] at hlt ⊢
      simp only [List.length_cons] at hlt
      have hcap : ¬ m ≤ acc.length + 1 := by omega
      have hl : komornikItems parse none (some m) (it :: rest) acc =
          komornikItems parse none (some m) rest (acc ++ [applyRegionBackfill it row0]) := by
        simp [komornikItems, hout, aux_cutoffHit_none, hcap]
      rw [hl, ih (acc ++ [applyRegionBackfill it row0]) (by simp; omega)]
      simp

theorem aux_komItems_capReach (parse : String → Option Int) (m : Nat) :
    ∀ (items : List KPageItem) (acc : List Listing),
      acc.length < m → m ≤ acc.length + (keptRowsK items).length →
      komornikItems parse none (some m) items acc = ((acc ++ keptRowsK items).take m, true) := by
  intro items
  induction items with
  | nil =>
    intro acc hlt hge
    rw [aux_keptK_nil] at hge
    simp at hge
    omega
  | cons it rest ih =>
    intro acc hlt hge
    cases hout : it.outcome with
    | none =>
      rw [aux_keptK_cons_none it rest hout] at hge ⊢
      have hl : komornikItems parse none (some m) (it :: rest) acc =
          komornikItems parse none (some m) rest acc := by
        simp [komornikItems, hout]
      rw [hl]
      exact ih acc hlt hge
    | some row0 =>
      rw [aux_keptK_cons_some it rest row0 hout] at hge ⊢
      by_cases hcap : m ≤ acc.length + 1
      · have hl : komornikItems parse none (some m) (it :: rest) acc =
            (acc ++ [applyRegionBackfill it row0], true) := by
          simp [komornikItems, hout, aux_cutoffHit_none, hcap]
        rw [hl]
        have hm : m = acc.length + 1 := by omega
        rw [show acc ++ applyRegionBackfill it row0 :: keptRowsK rest =
          (acc ++ [applyRegionBackfill it row0]) ++ keptRowsK rest by simp]
        rw [List.take_append_eq_append_take]
        have hlen : (acc ++ [applyRegionBackfill it row0]).length = m := by simp; omega
        rw [hlen]
        simp [List.take_of_length_le (le_of_eq hlen)]
      · have hl : komornikItems parse none (some m) (it :: rest) acc =
            komornikItems parse none (some m) rest (acc ++ [applyRegionBackfill it row0]) := by
          simp [komornikItems, hout, aux_cutoffHit_none, hcap]
        rw [hl, ih (acc ++ [applyRegionBackfill it row0]) (by simp; omega)
          (by simp only [List.length_cons] at hge; simp; omega)]
        simp

theorem aux_komPages_capReach (parse : String → Option Int) (m : Nat) :
    ∀ (pre : List (Option (List KPageItem))) (pg : List KPageItem)
      (post : List (Option (List KPageItem))) (fuel : Nat) (acc : List Listing),
      pre.all pageOk = true → pre.length + 1 ≤ fuel →
      acc.length + (flatKeptK pre).length < m →
      m ≤ acc.length + (flatKeptK pre).length + (keptRowsK pg).length →
      komornikPages parse none (some m) fuel (pre ++ some pg :: post) acc =
        ((acc ++ flatKeptK pre ++ keptRowsK pg).take m, pre.length + 1) := by
  intro pre
  induction pre with
  | nil =>
    intro pg post fuel acc _ hlen hlt hge
    rw [aux_flatK_nil] at hlt hge
    simp only [List.length_nil, Nat.add_zero] at hlt hge
    cases fuel with
    | zero => simp at hlen
    | succ f =>
      cases pg with
      | nil =>
        rw [aux_keptK_nil] at hge
        simp at hge
        omega
      | cons i is =>
        have hitems := aux_komItems_capReach parse m (i :: is) acc hlt (by omega)
        simp only [List.nil_append, komornikPages, List.isEmpty_cons, Bool.false_eq_true,
          if_false, hitems]
        simp [aux_flatK_nil]
  | cons p pre' ih =>
    intro pg post fuel acc hok hlen hlt hge
    rw [List.all_cons, Bool.and_eq_true] at hok
    cases fuel with
    | zero => simp at hlen
    | succ f =>
      cases p with
      | none => simp [pageOk] at hok
      | some items =>
        cases items with
        | nil => simp [pageOk] at hok
        | cons i is =>
          rw [aux_flatK_cons] at hlt hge
          simp only [Option.getD_some, List.length_append] at hlt hge
          have hpass := aux_komItems_capPass parse m (i :: is) acc (by omega)
          have hrec := ih pg post f (acc ++ keptRowsK (i :: is)) hok.2 (by simpa using hlen)
            (by simp; omega) (by simp; omega)
          simp only [List.cons_append, komornikPages, List.isEmpty_cons, Bool.false_eq_true,
            if_false, hpass, Prod.mk.injEq, List.append_eq]
          rw [hrec]
          simp [aux_flatK_cons, List.append_assoc]

theorem aux_backfill_eLift (o : Option Listing) (row : Listing) :
    applyRegionBackfill (eLift o) row = row := rfl

theorem aux_eItems_eq (parse : String → Option Int) (co : Option Int) :
    ∀ (items : List (Option Listing)) (acc : List Listing),
      elicytacjeItems parse co items acc =
        komornikItems parse co none (items.map eLift) acc := by
  intro items
  induction items with
  | nil => intro acc; rfl
  | cons it rest ih =>
    intro acc
    cases it with
    | none =>
      simp only [List.map_cons, elicytacjeItems, komornikItems, eLift]
      exact ih acc
    | some row =>
      simp only [List.map_cons, elicytacjeItems, komornikItems, eLift, applyRegionBackfill]
      by_cases hhit : cutoffHit parse co row.auction_date = true
      · simp [hhit]
      · have hhit' : cutoffHit parse co row.auction_date = false := by
          revert hhit; cases cutoffHit parse co row.auction_date <;> simp
        simp only [hhit', Bool.false_eq_true, if_false]
        exact ih (acc ++ [row])

theorem aux_ePages_eq (parse : String → Option Int) (co : Option Int) :
    ∀ (pages : List (Option (List (Option Listing)))) (fuel : Nat) (acc : List Listing),
      elicytacjePages parse co fuel pages acc =
        komornikPages parse co none fuel (eLiftPages pages) acc := by
  intro pages
  induction pages with
  | nil => intro fuel acc; cases fuel <;> rfl
  | cons pg rest ih =>
    intro fuel acc
    cases fuel with
    | zero => rfl
    | succ f =>
      cases pg with
      | none => rfl
      | some items =>
        simp only [eLiftPages, List.map_cons, Option.map_some']
        have hempty : (items.map eLift).isEmpty = items.isEmpty := by
          cases items <;> rfl
        by_cases he : items.isEmpty = true
        · simp [elicytacjePages, komornikPages, he, hempty]
        · have he' : items.isEmpty = false := by revert he; cases items.isEmpty <;> simp
          simp only [elicytacjePages, komornikPages, hempty, he', Bool.false_eq_true, if_false]
          rw [← aux_eItems_eq]
          rcases hres : elicytacjeItems parse co items acc with ⟨acc', flag⟩
          cases flag with
          | true => rfl
          | false =>
            have hihf := ih f acc'
            simp only [eLiftPages] at hihf
            simp only [hihf]

theorem aux_keptE_eq (items : List (Option Listing)) :
    keptRowsK (items.map eLift) = keptRowsE items := by
  induction items with
  | nil => rfl
  | cons it rest ih =>
    cases it with
    | none =>
      rw [List.map_cons, aux_keptK_cons_none (eLift none) _ rfl, ih]
      simp [keptRowsE, List.filterMap_cons]
    | some row =>
      rw [List.map_cons, aux_keptK_cons_some (eLift (some row)) _ row rfl, aux_backfill_eLift, ih]
      simp [keptRowsE, List.filterMap_cons]

theorem aux_flatE_eq (pages : List (Option (List (Option Listing)))) :
    flatKeptK (eLiftPages pages) = flatKeptE pages := by
  induction pages with
  | nil => rfl
  | cons pg rest ih =>
    have hh : keptRowsK ((Option.map (List.map eLift) pg).getD []) = keptRowsE (pg.getD []) := by
      cases pg with
      | none => rfl
      | some items => exact aux_keptE_eq items
    have hrest : flatKeptK (List.map (Option.map (List.map eLift)) rest) = flatKeptE rest := by
      simpa [eLiftPages] using ih
    rw [eLiftPages, List.map_cons, aux_flatK_cons, hh, hrest]
    simp [flatKeptE]

theorem aux_ePages_pageOk (pages : List (Option (List (Option Listing)))) :
    (eLiftPages pages).all pageOk = pages.all pageOk := by
  induction pages with
  | nil => rfl
  | cons pg rest ih =>
    have h : pageOk (Option.map (List.map eLift) pg) = pageOk pg := by
      cases pg with
      | none => rfl
      | some items => cases items <;> rfl
    have hrest : (List.map (Option.map (List.map eLift)) rest).all pageOk = rest.all pageOk := by
      simpa [eLiftPages] using ih
    simp [eLiftPages, h, hrest]

theorem aux_amwRowOf_url (it : AmwItem) : (amwRowOf it).source_url = it.source_url := rfl

theorem aux_amwItems_flagNone :
    ∀ (items : List AmwItem) (seen : List String) (acc : List Listing),
      (amwItemsGo none items seen acc).2.2 = false := by
  intro items
  induction items with
  | nil => intro seen acc; rfl
  | cons it rest ih =>
    intro seen acc
    unfold amwItemsGo
    by_cases hseen : it.source_url ∈ seen
    · simp only [hseen, if_true]
      exact ih seen acc
    · simp only [hseen, if_false]
      exact ih _ _

theorem aux_amwItems_ext (maxL : Option Nat) :
    ∀ (items : List AmwItem) (seen : List String) (acc : List Listing),
      ∃ t, (amwItemsGo maxL items seen acc).2.1 = acc ++ t := by
  intro items
  induction items with
  | nil => intro seen acc; exact ⟨[], by simp [amwItemsGo]⟩
  | cons it rest ih =>
    intro seen acc
    unfold amwItemsGo
    by_cases hseen : it.source_url ∈ seen
    · simpa [hseen] using ih seen acc
    · simp only [hseen, if_false]
      cases maxL with
      | none =>
        obtain ⟨t, ht⟩ := ih (it.source_url :: seen) (acc ++ [amwRowOf it])
        exact ⟨[amwRowOf it] ++ t, by simp [ht]⟩
      | some m =>
        by_cases hcap : m ≤ acc.length + 1
        · exact ⟨[amwRowOf it], by simp [hcap]⟩
        · obtain ⟨t, ht⟩ := ih (it.source_url :: seen) (acc ++ [amwRowOf it])
          exact ⟨[amwRowOf it] ++ t, by simp [hcap, ht]⟩

theorem aux_amwPages_ext (maxL : Option Nat) :
    ∀ (pages : List (Option (List AmwExtract))) (fuel : Nat) (seen : List String)
      (acc : List Listing),
      ∃ t, (amwPages maxL fuel pages seen acc).1 = acc ++ t := by
  intro pages
  induction pages with
  | nil => intro fuel seen acc; cases fuel <;> exact ⟨[], by simp [amwPages]⟩
  | cons pg rest ih =>
    intro fuel seen acc
    cases fuel with
    | zero => exact ⟨[], by simp [amwPages]⟩
    | succ f =>
      cases pg with
      | none => exact ⟨[], by simp [amwPages]⟩
      | some extracts =>
        by_cases hempty : (extracts.filterMap amwExtractToItem).isEmpty = true
        · exact ⟨[], by simp [amwPages, hempty]⟩
        · obtain ⟨t, ht⟩ := aux_amwItems_ext maxL (extracts.filterMap amwExtractToItem) seen acc
          rcases hres : amwItemsGo maxL (extracts.filterMap amwExtractToItem) seen acc with
            ⟨seen', acc', flag⟩
          rw [hres] at ht
          cases flag with
          | true =>
            refine ⟨t, ?_⟩
            simp only [amwPages, hempty, Bool.false_eq_true, if_false, hres]
            exact ht
          | false =>
            obtain ⟨t2, ht2⟩ := ih f seen' acc'
            refine ⟨t ++ t2, ?_⟩
            simp only [amwPages, hempty, Bool.false_eq_true, if_false, hres]
            rw [ht2]
            have ht' : acc' = acc ++ t := ht
            rw [ht', List.append_assoc]

theorem aux_amwItems_cap (m : Nat) :
    ∀ (items : List AmwItem) (seen : List String) (acc : List Listing), acc.length < m →
      ((amwItemsGo (some m) items seen acc).2.1 =
        ((amwItemsGo none items seen acc).2.1).take m) ∧
      ((amwItemsGo (some m) items seen acc).2.2 = true ↔
        m ≤ ((amwItemsGo none items seen acc).2.1).length) ∧
      ((amwItemsGo (some m) items seen acc).2.2 = false →
        amwItemsGo (some m) items seen acc = amwItemsGo none items seen acc) := by
  intro items
  induction items with
  | nil =>
    intro seen acc hacc
    refine ⟨by simp [amwItemsGo, List.take_of_length_le (by omega : acc.length ≤ m)], ?_, ?_⟩
    · simp [amwItemsGo]; omega
    · intro _; rfl
  | cons it rest ih =>
    intro seen acc hacc
    by_cases hseen : it.source_url ∈ seen
    · have hl : amwItemsGo (some m) (it :: rest) seen acc = amwItemsGo (some m) rest seen acc := by
        simp [amwItemsGo, hseen]
      have hr : amwItemsGo none (it :: rest) seen acc = amwItemsGo none rest seen acc := by
        simp [amwItemsGo, hseen]
      rw [hl, hr]
      exact ih seen acc hacc
    · have hr : amwItemsGo none (it :: rest) seen acc =
          amwItemsGo none rest (it.source_url :: seen) (acc ++ [amwRowOf it]) := by
        simp [amwItemsGo, hseen]
      by_cases hcap : m ≤ acc.length + 1
      · have hl : amwItemsGo (some m) (it :: rest) seen acc =
            (it.source_url :: seen, acc ++ [amwRowOf it], true) := by
          simp [amwItemsGo, hseen, hcap]
        rw [hl, hr]
        obtain ⟨t, ht⟩ := aux_amwItems_ext none rest (it.source_url :: seen) (acc ++ [amwRowOf it])
        rw [ht]
        have hlen : (acc ++ [amwRowOf it]).length = m := by simp; omega
        refine ⟨?_, ?_, ?_⟩
        · rw [List.take_append_eq_append_take, hlen]
          simp [List.take_of_length_le (le_of_eq hlen)]
        · constructor
          · intro _
            simp only [List.length_append, List.length_cons, List.length_nil] at hlen ⊢
            omega
          · intro _
            rfl
        · intro hfalse; cases hfalse
      · have hl : amwItemsGo (some m) (it :: rest) seen acc =
            amwItemsGo (some m) rest (it.source_url :: seen) (acc ++ [amwRowOf it]) := by
          simp [amwItemsGo, hseen, hcap]
        rw [hl, hr]
        exact ih (it.source_url :: seen) (acc ++ [amwRowOf it]) (by simp; omega)

theorem aux_amwPages_cap (m : Nat) :
    ∀ (pages : List (Option (List AmwExtract))) (fuel : Nat) (seen : List String)
      (acc : List Listing), acc.length < m →
      (amwPages (some m) fuel pages seen acc).1 =
        ((amwPages none fuel pages seen acc).1).take m := by
  intro pages
  induction pages with
  | nil =>
    intro fuel seen acc hacc
    cases fuel <;> simp [amwPages, List.take_of_length_le (by omega : acc.length ≤ m)]
  | cons pg rest ih =>
    intro fuel seen acc hacc
    cases fuel with
    | zero => simp [amwPages, List.take_of_length_le (by omega : acc.length ≤ m)]
    | succ f =>
      cases pg with
      | none => simp [amwPages, List.take_of_length_le (by omega : acc.length ≤ m)]
      | some extracts =>
        by_cases hempty : (extracts.filterMap amwExtractToItem).isEmpty = true
        · simp [amwPages, hempty, List.take_of_length_le (by omega : acc.length ≤ m)]
        · obtain ⟨hcap1, hcap2, hcap3⟩ :=
            aux_amwItems_cap m (extracts.filterMap amwExtractToItem) seen acc hacc
          rcases hu : amwItemsGo none (extracts.filterMap amwExtractToItem) seen acc with
            ⟨useen, uacc, uflag⟩
          have huflag : uflag = false := by
            have := aux_amwItems_flagNone (extracts.filterMap amwExtractToItem) seen acc
            rw [hu] at this
            exact this
          subst huflag
          rw [hu] at hcap1 hcap2 hcap3
          simp only at hcap1 hcap2 hcap3
          by_cases hreach : m ≤ uacc.length
          · have hflag : (amwItemsGo (some m) (extracts.filterMap amwExtractToItem) seen acc).2.2 = true :=
              hcap2.mpr hreach
            rcases hc : amwItemsGo (some m) (extracts.filterMap amwExtractToItem) seen acc with
              ⟨cseen, cacc, cflag⟩
            rw [hc] at hflag hcap1
            simp only at hflag hcap1
            subst hflag
            simp only [amwPages, hempty, Bool.false_eq_true, if_false, hc, hu]
            obtain ⟨t, ht⟩ := aux_amwPages_ext none rest f useen uacc
            rw [ht, hcap1, List.take_append_eq_append_take]
            have : m - uacc.length = 0 := by omega
            rw [this]
            simp
          · have hflag : (amwItemsGo (some m) (extracts.filterMap amwExtractToItem) seen acc).2.2 = false := by
              rcases hb : (amwItemsGo (some m) (extracts.filterMap amwExtractToItem) seen acc).2.2 with _ | _
              · rfl
              · exact absurd (hcap2.mp hb) hreach
            have heq := hcap3 hflag
            simp only [amwPages, hempty, Bool.false_eq_true, if_false, heq, hu]
            exact ih f useen uacc (by omega)

theorem aux_amwItems_inv (maxL : Option Nat) :
    ∀ (items : List AmwItem) (seen : List String) (acc : List Listing),
      (∀ r ∈ acc, r.source_url ∈ seen) → ((acc.map (·.source_url)).Nodup) →
      (((amwItemsGo maxL items seen acc).2.1).map (·.source_url)).Nodup ∧
      ∀ r ∈ (amwItemsGo maxL items seen acc).2.1,
        r.source_url ∈ (amwItemsGo maxL items seen acc).1 := by
  intro items
  induction items with
  | nil =>
    intro seen acc hsub hnd
    exact ⟨hnd, hsub⟩
  | cons it rest ih =>
    intro seen acc hsub hnd
    by_cases hseen : it.source_url ∈ seen
    · have hl : amwItemsGo maxL (it :: rest) seen acc = amwItemsGo maxL rest seen acc := by
        cases maxL <;> simp [amwItemsGo, hseen]
      rw [hl]
      exact ih seen acc hsub hnd
    · have hsub' : ∀ r ∈ acc ++ [amwRowOf it], r.source_url ∈ it.source_url :: seen := by
        intro r hr
        rw [List.mem_append] at hr
        rcases hr with hr | hr
        · exact List.mem_cons_of_mem _ (hsub r hr)
        · simp at hr
          subst hr
          rw [aux_amwRowOf_url]
          exact List.mem_cons_self _ _
      have hnd' : ((acc ++ [amwRowOf it]).map (·.source_url)).Nodup := by
        rw [List.map_append]
        rw [List.nodup_append]
        refine ⟨hnd, by simp, ?_⟩
        intro u hu hv
        simp only [List.map_cons, List.map_nil, List.mem_singleton, aux_amwRowOf_url] at hv
        rw [List.mem_map] at hu
        obtain ⟨r, hr, hru⟩ := hu
        subst hv
        exact hseen (hru ▸ hsub r hr)
      cases maxL with
      | none =>
        have hl : amwItemsGo none (it :: rest) seen acc =
            amwItemsGo none rest (it.source_url :: seen) (acc ++ [amwRowOf it]) := by
          simp [amwItemsGo, hseen]
        rw [hl]
        exact ih _ _ hsub' hnd'
      | some m =>
        by_cases hcap : m ≤ acc.length + 1
        · have hl : amwItemsGo (some m) (it :: rest) seen acc =
              (it.source_url :: seen, acc ++ [amwRowOf it], true) := by
            simp [amwItemsGo, hseen, hcap]
          rw [hl]
          exact ⟨hnd', hsub'⟩
        · have hl : amwItemsGo (some m) (it :: rest) seen acc =
              amwItemsGo (some m) rest (it.source_url :: seen) (acc ++ [amwRowOf it]) := by
            simp [amwItemsGo, hseen, hcap]
          rw [hl]
          exact ih _ _ hsub' hnd'

theorem aux_amwPages_nodup (maxL : Option Nat) :
    ∀ (pages : List (Option (List AmwExtract))) (fuel : Nat) (seen : List String)
      (acc : List Listing),
      (∀ r ∈ acc, r.source_url ∈ seen) → ((acc.map (·.source_url)).Nodup) →
      (((amwPages maxL fuel pages seen acc).1).map (·.source_url)).Nodup := by
  intro pages
  induction pages with
  | nil =>
    intro fuel seen acc _ hnd
    cases fuel <;> simpa [amwPages] using hnd
  | cons pg rest ih =>
    intro fuel seen acc hsub hnd
    cases fuel with
    | zero => simpa [amwPages] using hnd
    | succ f =>
      cases pg with
      | none => simpa [amwPages] using hnd
      | some extracts =>
        by_cases hempty : (extracts.filterMap amwExtractToItem).isEmpty = true
        · simpa [amwPages, hempty] using hnd
        · obtain ⟨hnd', hsub'⟩ :=
            aux_amwItems_inv maxL (extracts.filterMap amwExtractToItem) seen acc hsub hnd
          rcases hres : amwItemsGo maxL (extracts.filterMap amwExtractToItem) seen acc with
            ⟨seen', acc', flag⟩
          rw [hres] at hnd' hsub'
          simp only at hnd' hsub'
          cases flag with
          | true => simpa [amwPages, hempty, hres] using hnd'
          | false =>
            have := ih f seen' acc' hsub' hnd'
            simpa [amwPages, hempty, hres] using this

theorem aux_amwSourceUrl_split :
    ∀ (t : String) (p : Option Int) (d : Option PyDT),
      amwSourceUrl t p d = "https://amw.com.pl/pl/nieruchomosci/nieruchomosci-amw/#" ++
        sha256HexTrunc16 (utf8Encode (amwRawId t p d)) := by
  intro t p d
  show AMW_BASE ++ "/pl/nieruchomosci/nieruchomosci-amw/#" ++
      sha256HexTrunc16 (utf8Encode (amwRawId t p d)) = _
  have hbase : AMW_BASE ++ "/pl/nieruchomosci/nieruchomosci-amw/#" =
      "https://amw.com.pl/pl/nieruchomosci/nieruchomosci-amw/#" := by decide
  rw [hbase]

theorem aux_amwSourceUrl_starts (t : String) (p : Option Int) (d : Option PyDT) :
    strStarts (amwSourceUrl t p d)
      "https://amw.com.pl/pl/nieruchomosci/nieruchomosci-amw/#" = true ∧
    amwSourceUrl t p d ≠ "" := by
  rw [aux_amwSourceUrl_split]
  constructor
  · unfold strStarts
    rw [aux_strData_append]
    exact aux_listStarts_append_self _ _
  · intro hc
    have := congrArg String.data hc
    rw [aux_strData_append] at this
    have hne : ("https://amw.com.pl/pl/nieruchomosci/nieruchomosci-amw/#").data ≠ [] := by decide
    rcases hd : ("https://amw.com.pl/pl/nieruchomosci/nieruchomosci-amw/#").data with _ | ⟨c, cs⟩
    · exact hne hd
    · rw [hd] at this
      cases this

theorem aux_amwExtractToItem_shape (ex : AmwExtract) (it : AmwItem)
    (h : amwExtractToItem ex = some it) :
    ∃ t p d, it.source_url = amwSourceUrl t p d := by
  unfold amwExtractToItem at h
  simp only [] at h
  split at h
  · cases h
  · split at h
    · cases h
    · split at h
      · cases h
      · refine ⟨pyStrip ex.title, pricePlnFromText ex.priceStr,
          amwParseAuctionDate ex.dateStr, ?_⟩
        cases h
        rfl

theorem aux_amwItems_shape (maxL : Option Nat) :
    ∀ (items : List AmwItem) (seen : List String) (acc : List Listing),
      (∀ it ∈ items, ∃ t p d, it.source_url = amwSourceUrl t p d) →
      (∀ r ∈ acc, ∃ t p d, r.source_url = amwSourceUrl t p d) →
      ∀ r ∈ (amwItemsGo maxL items seen acc).2.1,
        ∃ t p d, r.source_url = amwSourceUrl t p d := by
  intro items
  induction items with
  | nil => intro seen acc _ hacc; exact hacc
  | cons it rest ih =>
    intro seen acc hitems hacc
    have hit := hitems it (by simp)
    have hrest : ∀ x ∈ rest, ∃ t p d, x.source_url = amwSourceUrl t p d :=
      fun x hx => hitems x (by simp [hx])
    have hacc' : ∀ r ∈ acc ++ [amwRowOf it], ∃ t p d, r.source_url = amwSourceUrl t p d := by
      intro r hr
      rw [List.mem_append] at hr
      rcases hr with hr | hr
      · exact hacc r hr
      · simp at hr
        subst hr
        rw [aux_amwRowOf_url]
        exact hit
    by_cases hseen : it.source_url ∈ seen
    · have hl : amwItemsGo maxL (it :: rest) seen acc = amwItemsGo maxL rest seen acc := by
        cases maxL <;> simp [amwItemsGo, hseen]
      rw [hl]
      exact ih seen acc hrest hacc
    · cases maxL with
      | none =>
        have hl : amwItemsGo none (it :: rest) seen acc =
            amwItemsGo none rest (it.source_url :: seen) (acc ++ [amwRowOf it]) := by
          simp [amwItemsGo, hseen]
        rw [hl]
        exact ih _ _ hrest hacc'
      | some m =>
        by_cases hcap : m ≤ acc.length + 1
        · have hl : amwItemsGo (some m) (it :: rest) seen acc =
              (it.source_url :: seen, acc ++ [amwRowOf it], true) := by
            simp [amwItemsGo, hseen, hcap]
          rw [hl]
          exact hacc'
        · have hl : amwItemsGo (some m) (it :: rest) seen acc =
              amwItemsGo (some m) rest (it.source_url :: seen) (acc ++ [amwRowOf it]) := by
            simp [amwItemsGo, hseen, hcap]
          rw [hl]
          exact ih _ _ hrest hacc'

theorem aux_amwPages_shape (maxL : Option Nat) :
    ∀ (pages : List (Option (List AmwExtract))) (fuel : Nat) (seen : List String)
      (acc : List Listing),
      (∀ r ∈ acc, ∃ t p d, r.source_url = amwSourceUrl t p d) →
      ∀ r ∈ (amwPages maxL fuel pages seen acc).1,
        ∃ t p d, r.source_url = amwSourceUrl t p d := by
  intro pages
  induction pages with
  | nil =>
    intro fuel seen acc hacc
    cases fuel <;> simpa [amwPages] using hacc
  | cons pg rest ih =>
    intro fuel seen acc hacc
    cases fuel with
    | zero => simpa [amwPages] using hacc
    | succ f =>
      cases pg with
      | none => simpa [amwPages] using hacc
      | some extracts =>
        have hitems : ∀ it ∈ extracts.filterMap amwExtractToItem,
            ∃ t p d, it.source_url = amwSourceUrl t p d := by
          intro it hit
          rw [List.mem_filterMap] at hit
          obtain ⟨ex, _, hex⟩ := hit
          exact aux_amwExtractToItem_shape ex it hex
        by_cases hempty : (extracts.filterMap amwExtractToItem).isEmpty = true
        · simpa [amwPages, hempty] using hacc
        · have hshape := aux_amwItems_shape maxL (extracts.filterMap amwExtractToItem)
            seen acc hitems hacc
          rcases hres : amwItemsGo maxL (extracts.filterMap amwExtractToItem) seen acc with
            ⟨seen', acc', flag⟩
          rw [hres] at hshape
          simp only at hshape
          cases flag with
          | true => simpa [amwPages, hempty, hres] using hshape
          | false =>
            have := ih f seen' acc' hshape
            simpa [amwPages, hempty, hres] using this

theorem aux_cutoffHit_adUTC (parse : String → Option Int) (c : Int) (r : Listing) (t : Int)
    (h : adUTC parse r = some t) :
    cutoffHit parse (some c) r.auction_date = decide (t < c) := by
  cases had : r.auction_date with
  | none =>
    have h' : (none : Option Int) = some t := by unfold adUTC at h; rw [had] at h; exact h
    cases h'
  | some s =>
    have h' : (if s = "" then none else parse s) = some t := by
      unfold adUTC at h; rw [had] at h; exact h
    by_cases hs : s = ""
    · rw [if_pos hs] at h'; cases h'
    · rw [if_neg hs] at h'
      show (if s = "" then false
            else match parse s with
              | some t' => decide (t' < c)
              | none => false) = decide (t < c)
      rw [if_neg hs, h']

theorem aux_keepRow_adUTC (parse : String → Option Int) (c : Int) (r : Listing) (t : Int)
    (h : adUTC parse r = some t) :
    keepRow parse (some c) r = decide (c ≤ t) := by
  unfold keepRow
  rw [aux_cutoffHit_adUTC parse c r t h]
  by_cases hlt : t < c <;> simp [hlt] <;> omega

theorem aux_pairwise_keep_mono (parse : String → Option Int) (c : Int) :
    ∀ l : List Listing, (∀ r ∈ l, (adUTC parse r).isSome = true) →
      l.Pairwise (fun a b => dateGE parse a b = true) →
      l.Pairwise (fun a b => keepRow parse (some c) b = true → keepRow parse (some c) a = true) := by
  intro l hsome hpw
  induction l with
  | nil => exact List.Pairwise.nil
  | cons a xs ih =>
    rw [List.pairwise_cons] at hpw
    rw [List.pairwise_cons]
    refine ⟨?_, ih (fun r hr => hsome r (by simp [hr])) hpw.2⟩
    intro b hb hkb
    obtain ⟨ta, hta⟩ : ∃ ta, adUTC parse a = some ta := by
      have := hsome a (by simp)
      cases hcase : adUTC parse a with
      | none => rw [hcase] at this; cases this
      | some v => exact ⟨v, rfl⟩
    obtain ⟨tb, htb⟩ : ∃ tb, adUTC parse b = some tb := by
      have := hsome b (by simp [hb])
      cases hcase : adUTC parse b with
      | none => rw [hcase] at this; cases this
      | some v => exact ⟨v, rfl⟩
    have hge := hpw.1 b hb
    unfold dateGE at hge
    rw [hta, htb] at hge
    rw [aux_keepRow_adUTC parse c b tb htb] at hkb
    rw [aux_keepRow_adUTC parse c a ta hta]
    simp at hge hkb ⊢
    omega

theorem aux_amwRawId_data (t : String) (p : Option Int) (d : Option PyDT) :
    (amwRawId t p d).data =
      t.data ++ '|' :: (pyIntStr (p.getD 0)).data ++ '|' :: (isoOfOpt d).data := by
  have hbar : ("|" : String).data = ['|'] := rfl
  cases d with
  | none =>
    show (t ++ "|" ++ pyIntStr (p.getD 0) ++ "|" ++ "").data = _
    simp [aux_strData_append, hbar, isoOfOpt]
  | some x =>
    show (t ++ "|" ++ pyIntStr (p.getD 0) ++ "|" ++ isoWarsaw x).data = _
    simp [aux_strData_append, hbar, isoOfOpt]

theorem aux_isoOfOpt_inj {d₁ d₂ : Option PyDT} (h₁ : optValidDT d₁ = true)
    (h₂ : optValidDT d₂ = true) (h : isoOfOpt d₁ = isoOfOpt d₂) : d₁ = d₂ := by
  cases d₁ with
  | none =>
    cases d₂ with
    | none => rfl
    | some x => exact absurd h.symm (aux_isoWarsaw_ne_empty x)
  | some x =>
    cases d₂ with
    | none => exact absurd h (aux_isoWarsaw_ne_empty x)
    | some y =>
      have := @aux_isoWarsaw_inj x y h₁ h₂ h
      rw [this]

theorem aux_flatK_append (l₁ l₂ : List (Option (List KPageItem))) :
    flatKeptK (l₁ ++ l₂) = flatKeptK l₁ ++ flatKeptK l₂ := by
  simp [flatKeptK]

theorem aux_find_hit_page (p : Listing → Bool) :
    ∀ pages : List (Option (List KPageItem)), pages.all pageOk = true →
      (flatKeptK pages).any p = true →
      ∃ pre pg post, pages = pre ++ some pg :: post ∧
        (∀ r ∈ flatKeptK pre, p r = false) ∧ (keptRowsK pg).any p = true := by
  intro pages
  induction pages with
  | nil => intro _ hany; simp [aux_flatK_nil] at hany
  | cons pg0 rest ih =>
    intro hok hany
    rw [List.all_cons, Bool.and_eq_true] at hok
    rw [aux_flatK_cons, List.any_append, Bool.or_eq_true] at hany
    obtain ⟨items, hitems⟩ : ∃ items, pg0 = some items := by
      cases pg0 with
      | none => simp [pageOk] at hok
      | some l => exact ⟨l, rfl⟩
    by_cases hfirst : (keptRowsK (pg0.getD [])).any p = true
    · refine ⟨[], items, rest, by simp [hitems], by simp [aux_flatK_nil], ?_⟩
      rw [hitems] at hfirst
      simpa using hfirst
    · have hrest : (flatKeptK rest).any p = true := by
        rcases hany with h | h
        · exact absurd h hfirst
        · exact h
      obtain ⟨pre, pg, post, hsplit, hpre, hpg⟩ := ih hok.2 hrest
      refine ⟨pg0 :: pre, pg, post, by rw [hsplit]; rfl, ?_, hpg⟩
      intro r hr
      rw [aux_flatK_cons, List.mem_append] at hr
      rcases hr with hr | hr
      · have hf : (keptRowsK (pg0.getD [])).any p = false := by
          revert hfirst; cases (keptRowsK (pg0.getD [])).any p <;> simp
        rw [List.any_eq_false] at hf
        have := hf r hr
        revert this; cases p r <;> simp
      · exact hpre r hr

theorem aux_komMaster (parse : String → Option Int) (c : Int) :
    ∀ (pages : List (Option (List KPageItem))) (fuel : Nat),
      pages.all pageOk = true → pages.length ≤ fuel →
      (flatKeptK pages).all (fun r => (adUTC parse r).isSome) = true →
      (flatKeptK pages).Pairwise (fun a b => dateGE parse a b = true) →
      ((komornikPages parse (some c) none fuel pages []).1 =
          (flatKeptK pages).takeWhile (keepRow parse (some c)) ∧
       (komornikPages parse (some c) none fuel pages []).1 =
          (flatKeptK pages).filter (keepRow parse (some c)) ∧
       (∀ pre pg post, pages = pre ++ some pg :: post →
          (∀ r ∈ flatKeptK pre, cutoffHit parse (some c) r.auction_date = false) →
          (keptRowsK pg).any (fun r => cutoffHit parse (some c) r.auction_date) = true →
          komornikPages parse (some c) none fuel pages [] =
            (flatKeptK pre ++ (keptRowsK pg).takeWhile (keepRow parse (some c)),
             pre.length + 1))) := by
  intro pages fuel hok hlen hsome hpw
  have hhit : ∀ pre pg post, pages = pre ++ some pg :: post →
      (∀ r ∈ flatKeptK pre, cutoffHit parse (some c) r.auction_date = false) →
      (keptRowsK pg).any (fun r => cutoffHit parse (some c) r.auction_date) = true →
      komornikPages parse (some c) none fuel pages [] =
        (flatKeptK pre ++ (keptRowsK pg).takeWhile (keepRow parse (some c)),
         pre.length + 1) := by
    intro pre pg post hsplit hpre hpg
    have hokpre : pre.all pageOk = true := by
      rw [hsplit, List.all_append, Bool.and_eq_true] at hok
      exact hok.1
    have hfuel : pre.length + 1 ≤ fuel := by
      rw [hsplit] at hlen
      simp only [List.length_append, List.length_cons] at hlen
      omega
    have hpgne : pg ≠ [] := by
      intro hc
      rw [hc] at hpg
      simp [aux_keptK_nil] at hpg
    rw [hsplit]
    have := aux_komPages_hit parse (some c) pre pg post fuel [] hokpre hfuel hpgne hpre hpg
    rw [this]
    simp
  have hfst : (komornikPages parse (some c) none fuel pages []).1 =
      (flatKeptK pages).takeWhile (keepRow parse (some c)) := by
    by_cases hany : (flatKeptK pages).any (fun r => cutoffHit parse (some c) r.auction_date) = true
    · obtain ⟨pre, pg, post, hsplit, hpre, hpg⟩ := aux_find_hit_page _ pages hok hany
      have hfull := hhit pre pg post hsplit hpre hpg
      have h1 : (komornikPages parse (some c) none fuel pages []).1 =
          flatKeptK pre ++ (keptRowsK pg).takeWhile (keepRow parse (some c)) := by
        rw [hfull]
      rw [h1, hsplit, aux_flatK_append, aux_flatK_cons]
      simp only [Option.getD_some]
      rw [aux_takeWhile_append_of_all _ (flatKeptK pre) _
        (fun r hr => by simp [keepRow, hpre r hr])]
      congr 1
      have hstop : ∃ x ∈ keptRowsK pg, keepRow parse (some c) x = false := by
        rw [List.any_eq_true] at hpg
        obtain ⟨x, hx, hpx⟩ := hpg
        exact ⟨x, hx, by simp [keepRow, hpx]⟩
      rw [aux_takeWhile_append_of_stop _ (keptRowsK pg) (flatKeptK post) hstop]
    · have hnone : ∀ r ∈ flatKeptK pages, cutoffHit parse (some c) r.auction_date = false := by
        have hf : (flatKeptK pages).any
            (fun r => cutoffHit parse (some c) r.auction_date) = false := by
          revert hany
          cases (flatKeptK pages).any (fun r => cutoffHit parse (some c) r.auction_date) <;> simp
        rw [List.any_eq_false] at hf
        intro r hr
        have := hf r hr
        revert this
        cases cutoffHit parse (some c) r.auction_date <;> simp
      have hnh := aux_komPages_nohit parse (some c) pages fuel [] hok hlen hnone
      have h1 : (komornikPages parse (some c) none fuel pages []).1 = flatKeptK pages := by
        rw [hnh]
        simp
      rw [h1, aux_takeWhile_of_all _ _ (fun r hr => by simp [keepRow, hnone r hr])]
  have hmono := aux_pairwise_keep_mono parse c (flatKeptK pages)
    (by rw [List.all_eq_true] at hsome; exact hsome) hpw
  have hfilter := aux_takeWhile_eq_filter_of_mono (keepRow parse (some c)) (flatKeptK pages) hmono
  exact ⟨hfst, by rw [hfst, hfilter], hhit⟩

/-! ## Claim theorems -/

/-- C4: for every input whose cleaned (stripped + lowercased) form contains a
phrase of the fixed `NO_PRICE_PHRASES` set, the price parser returns absent,
regardless of any numeric tokens also present; it also returns absent for
missing, empty and blank input. -/
theorem claim_C4_no_price_phrases :
    pricePlnFromText none = none ∧
    pricePlnFromText (some "") = none ∧
    (∀ s : String, pyClean s = "" → pricePlnFromText (some s) = none) ∧
    (∀ s ph : String, ph ∈ NO_PRICE_PHRASES → strContains (pyClean s) ph = true →
      pricePlnFromText (some s) = none) := by
  refine ⟨rfl, rfl, ?_, ?_⟩
  · intro s hcl
    unfold pricePlnFromText
    by_cases hse : s = ""
    · simp [hse]
    · simp [hse, hcl]
  · intro s ph hmem hsub
    unfold pricePlnFromText
    by_cases hse : s = ""
    · simp [hse]
    · have hany : NO_PRICE_PHRASES.any (fun p => strContains (pyClean s) p) = true :=
        List.any_eq_true.mpr ⟨ph, hmem, hsub⟩
      by_cases hcl : pyClean s = ""
      · simp [hse, hcl]
      · simp [hse, hcl, hany]

/-- Witness for C4 at a concrete input: a "no-price" phrase wins over the
numeric token `500 000`. -/
theorem claim_C4_no_price_phrases_witness :
    pricePlnFromText (some "Cena do uzgodnienia: 500 000 zł") = none :=
  claim_C4_no_price_phrases.2.2.2 "Cena do uzgodnienia: 500 000 zł" "do uzgodnienia"
    (by decide) (by decide)

/-- C9: the error-page guard returns false when the combined
title-plus-description text is empty, and otherwise returns true exactly when
the lowercased combined text contains a phrase of the fixed
`ERROR_PAGE_PHRASES` set as a substring; in particular it flags
"Maintenance" and passes an ordinary listing. -/
theorem claim_C9_error_page_guard :
    (∀ t d : Option String, errorPageText t d = "" → isLikelyErrorPage t d = false) ∧
    (∀ t d : Option String, errorPageText t d ≠ "" →
      isLikelyErrorPage t d =
        ERROR_PAGE_PHRASES.any (fun ph => strContains (pyLower (errorPageText t d)) ph)) ∧
    isLikelyErrorPage (some "Maintenance") (some "") = true ∧
    isLikelyErrorPage (some "Apartment for sale in Warsaw") (some "3 rooms") = false := by
  refine ⟨?_, ?_, by decide, by decide⟩
  · intro t d h
    unfold isLikelyErrorPage
    simp [h]
  · intro t d h
    unfold isLikelyErrorPage
    simp [h]

/-- Witness for C9 at a concrete input, discharging the non-empty-text
hypothesis. -/
theorem claim_C9_error_page_guard_witness :
    isLikelyErrorPage (some "Przerwa techniczna") none =
      ERROR_PAGE_PHRASES.any (fun ph =>
        strContains (pyLower (errorPageText (some "Przerwa techniczna") none)) ph) :=
  claim_C9_error_page_guard.2.1 (some "Przerwa techniczna") none (by decide)

/-- C5: the AMW date parser maps `"24.02.2026r, godz. 10:00"` to local 10:00
on 2026-02-24 in Europe/Warsaw (UTC offset +60 min, i.e. timezone-aware CET);
a date-only input defaults the time to 10:00; and the invalid calendar date
`"31.02.2026"` yields absent from both the AMW parser and the
komornik/e-licytacje fixed-format parser. -/
theorem claim_C5_date_semantics :
    amwParseAuctionDate (some "24.02.2026r, godz. 10:00") = some ⟨2026, 2, 24, 10, 0⟩ ∧
    warsawOffsetMinutes ⟨2026, 2, 24, 10, 0⟩ = 60 ∧
    amwParseAuctionDate (some "24.02.2026") = some ⟨2026, 2, 24, 10, 0⟩ ∧
    amwParseAuctionDate (some "31.02.2026") = none ∧
    komornikParseAuctionDate (some "31.02.2026") = none :=
  ⟨by decide, by decide, by decide, by decide, by decide⟩

/-- C1: for each auction-source crawl (komornik and e-licytacje) configured
with a days-back cutoff `now - days` (UTC), if every successfully parsed
listing of the given list pages has a present, parse-able `auction_date` and
the flattened listing stream is descending by date, then the crawl result is
exactly the prefix of listings with date ≥ cutoff (it equals both the
`takeWhile` prefix and the `filter` of new-enough listings), and whenever a
page `pg` contains the first listing strictly older than the cutoff, the
entire crawl stops there: the offending listing is excluded and exactly
`pre.length + 1` list pages are fetched, independent of all later pages. -/
theorem claim_C1_cutoff_boundary :
    (∀ (parseIso : String → Option Int) (now : Int) (cfg : ScrapingConfig) (c : Int)
       (pages : List (Option (List KPageItem))),
      configCutoff now cfg = some c →
      cfg.max_listings = none →
      pages.all pageOk = true →
      pages.length ≤ cfg.max_pages_auctions →
      (flatKeptK pages).all (fun r => (adUTC parseIso r).isSome) = true →
      (flatKeptK pages).Pairwise (fun a b => dateGE parseIso a b = true) →
      ((scrapeKomornikModel parseIso now cfg pages).1 =
          (flatKeptK pages).takeWhile (keepRow parseIso (some c)) ∧
       (scrapeKomornikModel parseIso now cfg pages).1 =
          (flatKeptK pages).filter (keepRow parseIso (some c)) ∧
       (∀ pre pg post, pages = pre ++ some pg :: post →
          (∀ r ∈ flatKeptK pre, cutoffHit parseIso (some c) r.auction_date = false) →
          (keptRowsK pg).any (fun r => cutoffHit parseIso (some c) r.auction_date) = true →
          scrapeKomornikModel parseIso now cfg pages =
            (flatKeptK pre ++ (keptRowsK pg).takeWhile (keepRow parseIso (some c)),
             pre.length + 1)))) ∧
    (∀ (parseIso : String → Option Int) (now : Int) (cfg : ScrapingConfig) (c : Int)
       (pages : List (Option (List (Option Listing)))),
      configCutoff now cfg = some c →
      pages.all pageOk = true →
      pages.length ≤ cfg.max_pages_auctions →
      (flatKeptE pages).all (fun r => (adUTC parseIso r).isSome) = true →
      (flatKeptE pages).Pairwise (fun a b => dateGE parseIso a b = true) →
      ((scrapeElicytacjeModel parseIso now cfg pages).1 =
          (flatKeptE pages).takeWhile (keepRow parseIso (some c)) ∧
       (scrapeElicytacjeModel parseIso now cfg pages).1 =
          (flatKeptE pages).filter (keepRow parseIso (some c)) ∧
       (∀ pre pg post, pages = pre ++ some pg :: post →
          (∀ r ∈ flatKeptE pre, cutoffHit parseIso (some c) r.auction_date = false) →
          (keptRowsE pg).any (fun r => cutoffHit parseIso (some c) r.auction_date) = true →
          scrapeElicytacjeModel parseIso now cfg pages =
            (flatKeptE pre ++ (keptRowsE pg).takeWhile (keepRow parseIso (some c)),
             pre.length + 1)))) := by
  constructor
  · intro parseIso now cfg c pages hconf hml hok hlen hsome hpw
    have hmodel : scrapeKomornikModel parseIso now cfg pages =
        komornikPages parseIso (some c) none cfg.max_pages_auctions pages [] := by
      unfold scrapeKomornikModel
      rw [hconf, hml]
    obtain ⟨h1, h2, h3⟩ :=
      aux_komMaster parseIso c pages cfg.max_pages_auctions hok hlen hsome hpw
    exact ⟨by rw [hmodel]; exact h1, by rw [hmodel]; exact h2,
      fun pre pg post hs hp hq => by rw [hmodel]; exact h3 pre pg post hs hp hq⟩
  · intro parseIso now cfg c pages hconf hok hlen hsome hpw
    have hmodel : scrapeElicytacjeModel parseIso now cfg pages =
        komornikPages parseIso (some c) none cfg.max_pages_auctions (eLiftPages pages) [] := by
      unfold scrapeElicytacjeModel
      rw [hconf, aux_ePages_eq]
    have hok' : (eLiftPages pages).all pageOk = true := by
      rw [aux_ePages_pageOk]; exact hok
    have hlen' : (eLiftPages pages).length ≤ cfg.max_pages_auctions := by
      simpa [eLiftPages] using hlen
    have hflat := aux_flatE_eq pages
    have hsome' : (flatKeptK (eLiftPages pages)).all
        (fun r => (adUTC parseIso r).isSome) = true := by
      rw [hflat]; exact hsome
    have hpw' : (flatKeptK (eLiftPages pages)).Pairwise
        (fun a b => dateGE parseIso a b = true) := by
      rw [hflat]; exact hpw
    obtain ⟨h1, h2, h3⟩ :=
      aux_komMaster parseIso c (eLiftPages pages) cfg.max_pages_auctions hok' hlen' hsome' hpw'
    rw [hflat] at h1 h2
    refine ⟨by rw [hmodel]; exact h1, by rw [hmodel]; exact h2, ?_⟩
    intro pre pg post hs hp hq
    have hsplit : eLiftPages pages =
        eLiftPages pre ++ some (pg.map eLift) :: eLiftPages post := by
      rw [hs]
      simp [eLiftPages]
    have hp' : ∀ r ∈ flatKeptK (eLiftPages pre),
        cutoffHit parseIso (some c) r.auction_date = false := by
      rw [aux_flatE_eq]
      exact hp
    have hq' : (keptRowsK (pg.map eLift)).any
        (fun r => cutoffHit parseIso (some c) r.auction_date) = true := by
      rw [aux_keptE_eq]
      exact hq
    have := h3 (eLiftPages pre) (pg.map eLift) (eLiftPages post) hsplit hp' hq'
    rw [hmodel, this, aux_flatE_eq, aux_keptE_eq]
    simp [eLiftPages]

/-- Witness for C1: a concrete three-page komornik crawl with cutoff 7
(days_back = 1, now = 86407) and dates 10, 5, 1: the crawl returns exactly
the one new-enough listing and fetches exactly two pages — the third page is
never fetched. -/
theorem claim_C1_cutoff_boundary_witness :
    scrapeKomornikModel
      (fun s => if s = "A" then some 10 else if s = "B" then some 5 else
        if s = "C" then some 1 else none)
      86407 ⟨50, none, some 1⟩
      [some [⟨"u1", none, some ⟨"t1", none, none, "loc", "city", "komornik", "u1", some "A", [], none⟩⟩],
       some [⟨"u2", none, some ⟨"t2", none, none, "loc", "city", "komornik", "u2", some "B", [], none⟩⟩],
       some [⟨"u3", none, some ⟨"t3", none, none, "loc", "city", "komornik", "u3", some "C", [], none⟩⟩]] =
      ([⟨"t1", none, none, "loc", "city", "komornik", "u1", some "A", [], none⟩], 2) := by
  have h := (claim_C1_cutoff_boundary.1
    (fun s => if s = "A" then some 10 else if s = "B" then some 5 else
      if s = "C" then some 1 else none)
    86407 ⟨50, none, some 1⟩ 7
    [some [⟨"u1", none, some ⟨"t1", none, none, "loc", "city", "komornik", "u1", some "A", [], none⟩⟩],
     some [⟨"u2", none, some ⟨"t2", none, none, "loc", "city", "komornik", "u2", some "B", [], none⟩⟩],
     some [⟨"u3", none, some ⟨"t3", none, none, "loc", "city", "komornik", "u3", some "C", [], none⟩⟩]]
    (by decide) rfl (by decide) (by decide) (by decide) (by decide)).2.2
    [some [⟨"u1", none, some ⟨"t1", none, none, "loc", "city", "komornik", "u1", some "A", [], none⟩⟩]]
    [⟨"u2", none, some ⟨"t2", none, none, "loc", "city", "komornik", "u2", some "B", [], none⟩⟩]
    [some [⟨"u3", none, some ⟨"t3", none, none, "loc", "city", "komornik", "u3", some "C", [], none⟩⟩]]
    rfl (by decide) (by decide)
  rw [h]
  decide

/-- C10: the crawl cutoff check fires only for listings with a present,
non-blank, parseable stored `auction_date`: an absent date, a blank string or
a parse-back failure never triggers termination; such a listing is appended
and the item loop continues (in both komornik's and e-licytacje's loops), and
a crawl over pages whose listings all lack parseable dates returns every
parsed listing of every page. -/
theorem claim_C10_dateless_kept :
    (∀ (parseIso : String → Option Int) (co : Option Int),
      cutoffHit parseIso co none = false) ∧
    (∀ (parseIso : String → Option Int) (co : Option Int) (s : String),
      s = "" ∨ parseIso s = none → cutoffHit parseIso co (some s) = false) ∧
    (∀ (parseIso : String → Option Int) (co : Option Int) (it : KPageItem)
       (rest : List KPageItem) (acc : List Listing) (row0 : Listing),
      it.outcome = some row0 →
      ((applyRegionBackfill it row0).auction_date = none ∨
       ∃ s, (applyRegionBackfill it row0).auction_date = some s ∧
            (s = "" ∨ parseIso s = none)) →
      komornikItems parseIso co none (it :: rest) acc =
        komornikItems parseIso co none rest (acc ++ [applyRegionBackfill it row0])) ∧
    (∀ (parseIso : String → Option Int) (co : Option Int) (row : Listing)
       (rest : List (Option Listing)) (acc : List Listing),
      (row.auction_date = none ∨
       ∃ s, row.auction_date = some s ∧ (s = "" ∨ parseIso s = none)) →
      elicytacjeItems parseIso co (some row :: rest) acc =
        elicytacjeItems parseIso co rest (acc ++ [row])) ∧
    (∀ (parseIso : String → Option Int) (co : Option Int)
       (pages : List (Option (List KPageItem))) (fuel : Nat),
      pages.all pageOk = true → pages.length ≤ fuel →
      (∀ r ∈ flatKeptK pages, adUTC parseIso r = none) →
      komornikPages parseIso co none fuel pages [] = (flatKeptK pages, pages.length)) := by
  have hnone : ∀ (parseIso : String → Option Int) (co : Option Int),
      cutoffHit parseIso co none = false := by
    intro parseIso co
    cases co <;> rfl
  have hbad : ∀ (parseIso : String → Option Int) (co : Option Int) (s : String),
      s = "" ∨ parseIso s = none → cutoffHit parseIso co (some s) = false := by
    intro parseIso co s hs
    cases co with
    | none => rfl
    | some c =>
      show (if s = "" then false
            else match parseIso s with
              | some t' => decide (t' < c)
              | none => false) = false
      rcases hs with hs | hs
      · rw [if_pos hs]
      · by_cases hse : s = ""
        · rw [if_pos hse]
        · rw [if_neg hse, hs]
  have hrowhit : ∀ (parseIso : String → Option Int) (co : Option Int) (row : Listing),
      (row.auction_date = none ∨
       ∃ s, row.auction_date = some s ∧ (s = "" ∨ parseIso s = none)) →
      cutoffHit parseIso co row.auction_date = false := by
    intro parseIso co row h
    rcases h with h | ⟨s, hs, hbadS⟩
    · rw [h]; exact hnone parseIso co
    · rw [hs]; exact hbad parseIso co s hbadS
  refine ⟨hnone, hbad, ?_, ?_, ?_⟩
  · intro parseIso co it rest acc row0 hout hdate
    have hhit := hrowhit parseIso co _ hdate
    simp [komornikItems, hout, hhit]
  · intro parseIso co row rest acc hdate
    have hhit := hrowhit parseIso co _ hdate
    simp [elicytacjeItems, hhit]
  · intro parseIso co pages fuel hok hlen hads
    have hn : ∀ r ∈ flatKeptK pages, cutoffHit parseIso co r.auction_date = false := by
      intro r hr
      have had := hads r hr
      unfold adUTC at had
      cases hcase : r.auction_date with
      | none => exact hnone parseIso co
      | some s =>
        rw [hcase] at had
        apply hbad parseIso co s
        by_cases hse : s = ""
        · exact Or.inl hse
        · right
          have had' : (if s = "" then none else parseIso s) = none := had
          rwa [if_neg hse] at had'
    have := aux_komPages_nohit parseIso co pages fuel [] hok hlen hn
    rw [this]
    simp

/-- Witness for C10: a concrete row whose stored date string fails to parse
back is appended and the loop continues. -/
theorem claim_C10_dateless_kept_witness :
    komornikItems (fun _ => none) (some 0) none
      [⟨"u", none, some ⟨"t", none, none, "loc", "city", "komornik", "u", some "xyz", [], none⟩⟩]
      [] =
    ([⟨"t", none, none, "loc", "city", "komornik", "u", some "xyz", [], none⟩], false) := by
  have h := claim_C10_dateless_kept.2.2.1 (fun _ => none) (some 0)
    ⟨"u", none, some ⟨"t", none, none, "loc", "city", "komornik", "u", some "xyz", [], none⟩⟩
    [] []
    ⟨"t", none, none, "loc", "city", "komornik", "u", some "xyz", [], none⟩
    rfl (Or.inr ⟨"xyz", rfl, Or.inr rfl⟩)
  rw [h]
  decide

/-- C3 counterexample: the e-licytacje crawl does not honor the count cap.
Configured with `max_listings = 1` and a single page carrying two listings,
it returns 2 listings — more than the configured maximum. -/
theorem claim_C3_count_cap_counterexample :
    (({ max_pages_auctions := 50, max_listings := some 1, days_back := none } :
        ScrapingConfig).max_listings = some 1) ∧
    (scrapeElicytacjeModel (fun _ => none) 0
        { max_pages_auctions := 50, max_listings := some 1, days_back := none }
        [some [some ⟨"t1", none, none, "l", "c", "e_licytacje", "u1", none, [], none⟩,
               some ⟨"t2", none, none, "l", "c", "e_licytacje", "u2", none, [], none⟩]]).1.length
      = 2 ∧
    ¬ (2 ≤ 1) := by
  refine ⟨rfl, by decide, by omega⟩

/-- C3 amended: the komornik and AMW crawls stop immediately once the
accumulated results reach a configured cap `m ≥ 1`: their result is the
uncapped result truncated to `m` (hence at most `m` listings), and komornik
stops mid-page, fetching no page after the one where the cap is reached; the
e-licytacje crawl ignores the `max_listings` setting entirely (its result
depends only on the other configuration fields). -/
theorem claim_C3_count_cap_amended :
    (∀ (parseIso : String → Option Int) (now : Int) (cfg : ScrapingConfig) (m : Nat)
       (pages : List (Option (List KPageItem))),
      cfg.max_listings = some m → 1 ≤ m →
      (scrapeKomornikModel parseIso now cfg pages).1 =
        ((scrapeKomornikModel parseIso now { cfg with max_listings := none } pages).1).take m ∧
      (scrapeKomornikModel parseIso now cfg pages).1.length ≤ m) ∧
    (∀ (cfg : ScrapingConfig) (m : Nat) (pages : List (Option (List AmwExtract))),
      cfg.max_listings = some m → 1 ≤ m →
      (scrapeAmwModel cfg pages).1 =
        ((scrapeAmwModel { cfg with max_listings := none } pages).1).take m ∧
      (scrapeAmwModel cfg pages).1.length ≤ m) ∧
    (∀ (parseIso : String → Option Int) (now : Int) (cfg : ScrapingConfig) (m : Nat)
       (pre : List (Option (List KPageItem))) (pg : List KPageItem)
       (post : List (Option (List KPageItem))),
      cfg.max_listings = some m → cfg.days_back = none →
      pre.all pageOk = true → pre.length + 1 ≤ cfg.max_pages_auctions →
      (flatKeptK pre).length < m →
      m ≤ (flatKeptK pre).length + (keptRowsK pg).length →
      scrapeKomornikModel parseIso now cfg (pre ++ some pg :: post) =
        ((flatKeptK pre ++ keptRowsK pg).take m, pre.length + 1)) ∧
    (∀ (parseIso : String → Option Int) (now : Int) (cfg₁ cfg₂ : ScrapingConfig)
       (pages : List (Option (List (Option Listing)))),
      cfg₁.max_pages_auctions = cfg₂.max_pages_auctions →
      cfg₁.days_back = cfg₂.days_back →
      scrapeElicytacjeModel parseIso now cfg₁ pages =
        scrapeElicytacjeModel parseIso now cfg₂ pages) := by
  refine ⟨?_, ?_, ?_, ?_⟩
  · intro parseIso now cfg m pages hml hm
    have hcfg : configCutoff now { cfg with max_listings := none } = configCutoff now cfg := rfl
    have htake : (scrapeKomornikModel parseIso now cfg pages).1 =
        ((scrapeKomornikModel parseIso now { cfg with max_listings := none } pages).1).take m := by
      unfold scrapeKomornikModel
      rw [hcfg, hml]
      exact aux_komPages_cap parseIso (configCutoff now cfg) m pages
        cfg.max_pages_auctions [] (by simp; omega)
    refine ⟨htake, ?_⟩
    rw [htake]
    simp [List.length_take]
  · intro cfg m pages hml hm
    have htake : (scrapeAmwModel cfg pages).1 =
        ((scrapeAmwModel { cfg with max_listings := none } pages).1).take m := by
      unfold scrapeAmwModel
      rw [hml]
      exact aux_amwPages_cap m pages cfg.max_pages_auctions [] [] (by simp; omega)
    refine ⟨htake, ?_⟩
    rw [htake]
    simp [List.length_take]
  · intro parseIso now cfg m pre pg post hml hdb hok hfuel hlt hge
    unfold scrapeKomornikModel
    have hcut : configCutoff now cfg = none := by
      unfold configCutoff
      rw [hdb]
    rw [hcut, hml]
    have := aux_komPages_capReach parseIso m pre pg post cfg.max_pages_auctions []
      hok hfuel (by simpa using hlt) (by simpa using hge)
    rw [this]
    simp
  · intro parseIso now cfg₁ cfg₂ pages hmp hdb
    unfold scrapeElicytacjeModel configCutoff
    rw [hmp, hdb]

/-- Witness for C3 (amended): a komornik crawl with cap 1 over one page of
two listings returns the uncapped result truncated to one listing. -/
theorem claim_C3_count_cap_amended_witness :
    (scrapeKomornikModel (fun _ => none) 0
        { max_pages_auctions := 50, max_listings := some 1, days_back := none }
        [some [⟨"u1", none, some ⟨"t1", none, none, "l", "c", "komornik", "u1", none, [], none⟩⟩,
               ⟨"u2", none, some ⟨"t2", none, none, "l", "c", "komornik", "u2", none, [], none⟩⟩]]).1 =
      ((scrapeKomornikModel (fun _ => none) 0
        { max_pages_auctions := 50, max_listings := none, days_back := none }
        [some [⟨"u1", none, some ⟨"t1", none, none, "l", "c", "komornik", "u1", none, [], none⟩⟩,
               ⟨"u2", none, some ⟨"t2", none, none, "l", "c", "komornik", "u2", none, [], none⟩⟩]]).1).take 1 ∧
    (scrapeKomornikModel (fun _ => none) 0
        { max_pages_auctions := 50, max_listings := some 1, days_back := none }
        [some [⟨"u1", none, some ⟨"t1", none, none, "l", "c", "komornik", "u1", none, [], none⟩⟩,
               ⟨"u2", none, some ⟨"t2", none, none, "l", "c", "komornik", "u2", none, [], none⟩⟩]]).1.length ≤ 1 :=
  claim_C3_count_cap_amended.1 (fun _ => none) 0
    { max_pages_auctions := 50, max_listings := some 1, days_back := none } 1
    [some [⟨"u1", none, some ⟨"t1", none, none, "l", "c", "komornik", "u1", none, [], none⟩⟩,
           ⟨"u2", none, some ⟨"t2", none, none, "l", "c", "komornik", "u2", none, [], none⟩⟩]]
    rfl (by omega)

theorem aux_kItemOfHref_url (row : KTableRow) (href : String) (it : KItem)
    (h : kItemOfHref row href = some it) :
    strContains it.url "licytacje.komornik.pl" = true ∧ it.url ≠ "" := by
  unfold kItemOfHref at h
  simp only [] at h
  split at h
  · cases h
  · split at h
    · rename_i hcond
      cases h
      rw [Bool.and_eq_true] at hcond
      exact ⟨hcond.1, aux_strContains_ne_empty (by decide) hcond.1⟩
    · cases h

theorem aux_kRowToItem_url (rl : String) (row : KTableRow) (it : KItem)
    (h : kRowToItem rl row = some it) :
    strContains it.url "licytacje.komornik.pl" = true ∧ it.url ≠ "" := by
  unfold kRowToItem at h
  split at h
  · cases h
  · split at h
    · cases h
    · rw [Option.bind_eq_some] at h
      obtain ⟨href, _, hio⟩ := h
      exact aux_kItemOfHref_url row href it hio

theorem aux_eUrl_ne (href : String) :
    String.mk ((urljoinModel ELICYTACJE_BASE href).data.takeWhile (· ≠ '?')) ≠ "" := by
  have hhead : ∃ c cs, (urljoinModel ELICYTACJE_BASE href).data = c :: cs ∧ ¬ c = '?' := by
    unfold urljoinModel
    by_cases hsch : hasScheme href = true
    · rw [if_pos hsch]
      unfold hasScheme at hsch
      cases hd : href.data with
      | nil => rw [hd] at hsch; cases hsch
      | cons c cs =>
        rw [hd] at hsch
        rw [Bool.and_eq_true] at hsch
        refine ⟨c, cs, rfl, ?_⟩
        intro hc
        subst hc
        cases hsch.1
    · rw [if_neg hsch]
      have hb : ELICYTACJE_BASE = String.mk ('h' :: "ttps://elicytacje.komornik.pl".data) := by
        decide
      by_cases hsl : strStarts href "/" = true
      · rw [if_pos hsl, hb, aux_strData_append]
        exact ⟨'h', "ttps://elicytacje.komornik.pl".data ++ href.data, rfl, by decide⟩
      · rw [if_neg hsl, hb, aux_strData_append, aux_strData_append]
        exact ⟨'h', ("ttps://elicytacje.komornik.pl".data ++ ("/").data) ++ href.data, rfl,
          by decide⟩
  obtain ⟨c, cs, hdata, hc⟩ := hhead
  rw [hdata, List.takeWhile_cons]
  have : (decide (c ≠ '?')) = true := by simp [hc]
  rw [this]
  simp only [if_true]
  intro hcon
  have := congrArg String.data hcon
  cases this

theorem aux_eItemOfHref_ne (txt href : String) (it : KItem)
    (h : eItemOfHref txt href = some it) : it.url ≠ "" := by
  unfold eItemOfHref at h
  simp only [] at h
  split at h
  · cases h
  · split at h
    · cases h
      exact aux_eUrl_ne href
    · cases h

theorem aux_eAnchorToItem_ne (a : EAnchor) (it : KItem) (h : eAnchorToItem a = some it) :
    it.url ≠ "" := by
  unfold eAnchorToItem at h
  rw [Option.bind_eq_some] at h
  obtain ⟨href, _, hio⟩ := h
  exact aux_eItemOfHref_ne a.text href it hio

/-- C2: counterexample.  The claim says a candidate whose identity key was
already seen earlier in the same crawl — including on an earlier page — is
never emitted again.  In komornik.py the `seen` set of `_parse_list_page`
(lines 74-75) is local to one list page, so a listing that the site shows on
two consecutive pages is fetched and emitted twice: with no cutoff and no
cap, a two-page crawl whose pages each parse to the same candidate URL
returns two rows with identical `source_url`, so the output's URLs are not
pairwise distinct. -/
theorem claim_C2_dedup_counterexample :
    ∃ (pg : Option (List KPageItem)),
      pg = some ((parseListPageK none
          [⟨["", "", "", "Dom w Kielcach", "Kielce", "", "", ""],
            [some "https://licytacje.komornik.pl/Notice/Details/7"]⟩]).map
        (fun it => ⟨it.url, it.region,
          some (normalizedListing it.title none none "Kielce" "Kielce" "komornik"
            it.url none [] none)⟩)) ∧
      (((scrapeKomornikModel (fun _ => none) 0 {} [pg, pg]).1).map
          (fun r => r.source_url)) =
        ["https://licytacje.komornik.pl/Notice/Details/7",
         "https://licytacje.komornik.pl/Notice/Details/7"] ∧
      ¬ (((scrapeKomornikModel (fun _ => none) 0 {} [pg, pg]).1).map
          (fun r => r.source_url)).Nodup := by
  refine ⟨_, rfl, ?_, ?_⟩ <;> decide

/-- C2 (amended): deduplication by candidate URL is per list page for
komornik and elicytacje, and per run for AMW.  Within one call of
`_parse_list_page`, komornik's output has pairwise-distinct URLs, is a
stable-order sublist of the per-row candidates, every emitted URL contains
`licytacje.komornik.pl` (hence is non-empty) and wins as the first candidate
with its URL, and every candidate URL is represented; elicytacje's
`_parse_list_page` satisfies the same with non-empty URLs; AMW's `seen_urls`
set lives for the whole run, so the full crawl output has pairwise-distinct
non-empty `source_url`s, each a fragment on the canonical AMW base URL. -/
theorem claim_C2_dedup_amended :
    (∀ (rf : Option String) (rows : List KTableRow),
      ((parseListPageK rf rows).map (fun it => it.url)).Nodup ∧
      (parseListPageK rf rows).Sublist
        (rows.filterMap (kRowToItem (pyLower (pyStrip (rf.getD ""))))) ∧
      (∀ it ∈ parseListPageK rf rows,
        strContains it.url "licytacje.komornik.pl" = true ∧ it.url ≠ "" ∧
        ∃ p q, rows.filterMap (kRowToItem (pyLower (pyStrip (rf.getD "")))) =
            p ++ it :: q ∧ ∀ y ∈ p, y.url ≠ it.url) ∧
      (∀ x ∈ rows.filterMap (kRowToItem (pyLower (pyStrip (rf.getD "")))),
        ∃ y ∈ parseListPageK rf rows, y.url = x.url)) ∧
    (∀ (anchors : List EAnchor),
      ((parseListPageE anchors).map (fun it => it.url)).Nodup ∧
      (parseListPageE anchors).Sublist (anchors.filterMap eAnchorToItem) ∧
      (∀ it ∈ parseListPageE anchors, it.url ≠ "" ∧
        ∃ p q, anchors.filterMap eAnchorToItem = p ++ it :: q ∧
          ∀ y ∈ p, y.url ≠ it.url) ∧
      (∀ x ∈ anchors.filterMap eAnchorToItem,
        ∃ y ∈ parseListPageE anchors, y.url = x.url)) ∧
    (∀ (cfg : ScrapingConfig) (pages : List (Option (List AmwExtract))),
      (((scrapeAmwModel cfg pages).1).map (fun r => r.source_url)).Nodup ∧
      ∀ r ∈ (scrapeAmwModel cfg pages).1,
        strStarts r.source_url
          "https://amw.com.pl/pl/nieruchomosci/nieruchomosci-amw/#" = true ∧
        r.source_url ≠ "") := by
  refine ⟨?_, ?_, ?_⟩
  · intro rf rows
    have hP : parseListPageK rf rows =
        dedupByKey (fun it => it.url) []
          (rows.filterMap (kRowToItem (pyLower (pyStrip (rf.getD ""))))) := rfl
    refine ⟨?_, ?_, ?_, ?_⟩
    · rw [hP]
      exact aux_dedup_nodup _ _ _
    · rw [hP]
      exact aux_dedup_sublist _ _ _
    · intro it hit
      rw [hP] at hit
      have hmem := (aux_dedup_sublist (fun it => it.url)
        (rows.filterMap (kRowToItem (pyLower (pyStrip (rf.getD ""))))) []).subset hit
      rw [List.mem_filterMap] at hmem
      obtain ⟨row, _, hrow⟩ := hmem
      obtain ⟨hc, hne⟩ := aux_kRowToItem_url _ row it hrow
      obtain ⟨p, q, hpq, hp⟩ := aux_dedup_first_wins (fun it => it.url) _ [] it hit
      refine ⟨hc, hne, p, q, hpq, ?_⟩
      intro y hy
      rcases hp y hy with h | h
      · simp at h
      · exact h
    · intro x hx
      obtain ⟨y, hy, hk⟩ := aux_dedup_covers (fun it => it.url) _ [] x hx (by simp)
      rw [← hP] at hy
      exact ⟨y, hy, hk⟩
  · intro anchors
    have hP : parseListPageE anchors =
        dedupByKey (fun it => it.url) [] (anchors.filterMap eAnchorToItem) := rfl
    refine ⟨?_, ?_, ?_, ?_⟩
    · rw [hP]
      exact aux_dedup_nodup _ _ _
    · rw [hP]
      exact aux_dedup_sublist _ _ _
    · intro it hit
      rw [hP] at hit
      have hmem := (aux_dedup_sublist (fun it => it.url)
        (anchors.filterMap eAnchorToItem) []).subset hit
      rw [List.mem_filterMap] at hmem
      obtain ⟨a, _, ha⟩ := hmem
      obtain ⟨p, q, hpq, hp⟩ := aux_dedup_first_wins (fun it => it.url) _ [] it hit
      refine ⟨aux_eAnchorToItem_ne a it ha, p, q, hpq, ?_⟩
      intro y hy
      rcases hp y hy with h | h
      · simp at h
      · exact h
    · intro x hx
      obtain ⟨y, hy, hk⟩ := aux_dedup_covers (fun it => it.url) _ [] x hx (by simp)
      rw [← hP] at hy
      exact ⟨y, hy, hk⟩
  · intro cfg pages
    have hA : scrapeAmwModel cfg pages =
        amwPages cfg.max_listings cfg.max_pages_auctions pages [] [] := rfl
    constructor
    · rw [hA]
      exact aux_amwPages_nodup cfg.max_listings pages cfg.max_pages_auctions [] []
        (by simp) (by simp)
    · intro r hr
      rw [hA] at hr
      obtain ⟨t, p, d, hurl⟩ := aux_amwPages_shape cfg.max_listings pages
        cfg.max_pages_auctions [] [] (by simp) r hr
      rw [hurl]
      exact aux_amwSourceUrl_starts t p d

/-- C2 (amended), witnessed on a concrete elicytacje page: the single
candidate anchor's URL is represented in the deduplicated output. -/
theorem claim_C2_dedup_amended_witness :
    ∃ y ∈ parseListPageE [⟨some "https://elicytacje.komornik.pl/licytacje/9", "T"⟩],
      y.url = (⟨"https://elicytacje.komornik.pl/licytacje/9", "T", none⟩ : KItem).url :=
  (claim_C2_dedup_amended.2.1
    [⟨some "https://elicytacje.komornik.pl/licytacje/9", "T"⟩]).2.2.2
    ⟨"https://elicytacje.komornik.pl/licytacje/9", "T", none⟩ (by decide)

theorem aux_sha256Rounds_len :
    ∀ (l : List (Nat × Nat)) (st : List Nat), st.length = 8 →
      (sha256Rounds l st).length = 8 := by
  intro l
  induction l with
  | nil => intro st h; exact h
  | cons kw rest ih =>
    intro st h
    obtain ⟨k, w⟩ := kw
    rw [sha256Rounds]
    exact ih _ rfl

theorem aux_sha256Chunks_len :
    ∀ (cks : List (List Nat)) (hs : List Nat), hs.length = 8 →
      (sha256Chunks cks hs).length = 8 := by
  intro cks
  induction cks with
  | nil => intro hs h; exact h
  | cons c rest ih =>
    intro hs h
    rw [sha256Chunks]
    show (sha256Chunks rest (List.zipWith (fun a b => (a + b) % M32) hs
      (sha256Rounds (sha256K.zip (sha256Extend (bytesToWords c) 48)) hs))).length = 8
    refine ih _ ?_
    have hst := aux_sha256Rounds_len (sha256K.zip (sha256Extend (bytesToWords c) 48)) hs h
    rw [List.length_zipWith, h, hst]
    omega

theorem aux_be4_flatten_len :
    ∀ hs : List Nat, ((hs.map be4).flatten).length = 4 * hs.length := by
  intro hs
  induction hs with
  | nil => rfl
  | cons a rest ih =>
    simp only [List.map_cons, List.flatten_cons, List.length_append, ih, be4,
      List.length_cons, List.length_nil]
    omega

theorem aux_hexpairs_len :
    ∀ bs : List Nat,
      ((bs.map (fun b => [hexDigit (b / 16), hexDigit (b % 16)])).flatten).length =
        2 * bs.length := by
  intro bs
  induction bs with
  | nil => rfl
  | cons a rest ih =>
    simp only [List.map_cons, List.flatten_cons, List.length_append, ih,
      List.length_cons, List.length_nil]
    omega

theorem aux_sha256Bytes_len (msg : List Nat) : (sha256Bytes msg).length = 32 := by
  unfold sha256Bytes
  rw [aux_be4_flatten_len, aux_sha256Chunks_len _ _ (by rfl)]

theorem aux_sha256HexTrunc16_len (msg : List Nat) : (sha256HexTrunc16 msg).length = 16 := by
  unfold sha256HexTrunc16
  show (((sha256Bytes msg).map (fun b => [hexDigit (b / 16), hexDigit (b % 16)])).flatten.take
    16).length = 16
  rw [List.length_take, aux_hexpairs_len, aux_sha256Bytes_len]
  omega

/-- C6: counterexample.  The claim says changing any one of the three
composite-key fields (title, price, auction date) yields a different hashed
`source_url`.  The f-string of amw.py line 95 renders the price as
`price_pln or 0`, so changing the price field from `None` to `0` leaves the
hash input — and hence the fallback `source_url` — unchanged. -/
theorem claim_C6_identity_counterexample :
    (some 0 : Option Int) ≠ (none : Option Int) ∧
    amwSourceUrl "Mieszkanie, Kielce" (some 0) none =
      amwSourceUrl "Mieszkanie, Kielce" none none :=
  ⟨by decide, congrArg amwSourceUrlOfRaw rfl⟩

/-- C6 (amended): the fallback identity is a deterministic function of the
composite-key string `f"{title}|{price_pln or 0}|{iso-date or ''}"` — equal
key strings give equal `source_url`s — and the `source_url` is that string's
truncated SHA-256 digest, 16 hex characters long, as a fragment on the
canonical AMW base URL.  The key string itself separates the fields: it
changes whenever the title changes (price and date fixed), it changes with
the price exactly up to the `None`/`0` identification of `price_pln or 0`,
and with the date exactly up to `Option PyDT` equality for constructible
dates.  (Distinct key strings are not proven to give distinct `source_url`s:
a 16-hex-character truncation of SHA-256 is not injective.) -/
theorem claim_C6_identity_amended :
    (∀ (t₁ t₂ : String) (p₁ p₂ : Option Int) (d₁ d₂ : Option PyDT),
      amwRawId t₁ p₁ d₁ = amwRawId t₂ p₂ d₂ →
      amwSourceUrl t₁ p₁ d₁ = amwSourceUrl t₂ p₂ d₂) ∧
    (∀ (t : String) (p : Option Int) (d : Option PyDT),
      amwSourceUrl t p d =
        "https://amw.com.pl/pl/nieruchomosci/nieruchomosci-amw/#" ++
          sha256HexTrunc16 (utf8Encode (amwRawId t p d)) ∧
      (sha256HexTrunc16 (utf8Encode (amwRawId t p d))).length = 16) ∧
    (∀ (t₁ t₂ : String) (p : Option Int) (d : Option PyDT),
      t₁ ≠ t₂ → amwRawId t₁ p d ≠ amwRawId t₂ p d) ∧
    (∀ (t : String) (p₁ p₂ : Option Int) (d : Option PyDT),
      amwRawId t p₁ d = amwRawId t p₂ d ↔ p₁.getD 0 = p₂.getD 0) ∧
    (∀ (t : String) (p : Option Int) (d₁ d₂ : Option PyDT),
      optValidDT d₁ = true → optValidDT d₂ = true →
      (amwRawId t p d₁ = amwRawId t p d₂ ↔ d₁ = d₂)) := by
  refine ⟨?_, ?_, ?_, ?_, ?_⟩
  · intro t₁ t₂ p₁ p₂ d₁ d₂ h
    exact congrArg amwSourceUrlOfRaw h
  · intro t p d
    exact ⟨aux_amwSourceUrl_split t p d, aux_sha256HexTrunc16_len _⟩
  · intro t₁ t₂ p d hne heq
    apply hne
    have h := congrArg String.data heq
    rw [aux_amwRawId_data, aux_amwRawId_data] at h
    exact aux_strData_inj (List.append_cancel_right (List.append_cancel_right h))
  · intro t p₁ p₂ d
    constructor
    · intro heq
      have h := congrArg String.data heq
      rw [aux_amwRawId_data, aux_amwRawId_data] at h
      have h3 := List.append_cancel_left (List.append_cancel_right h)
      injection h3 with _ h4
      exact aux_pyIntStr_inj _ _ (aux_strData_inj h4)
    · intro heq
      unfold amwRawId
      rw [heq]
  · intro t p d₁ d₂ h₁ h₂
    constructor
    · intro heq
      have h := congrArg String.data heq
      rw [aux_amwRawId_data, aux_amwRawId_data] at h
      have h3 := List.append_cancel_left h
      injection h3 with _ h4
      exact aux_isoOfOpt_inj h₁ h₂ (aux_strData_inj h4)
    · intro heq
      rw [heq]

/-- C6 (amended), witnessed: distinct titles give distinct key strings, and
for a constructible date, dropping the date changes the key string. -/
theorem claim_C6_identity_amended_witness :
    amwRawId "A" none none ≠ amwRawId "B" none none ∧
    (amwRawId "A" none (some ⟨2024, 3, 15, 10, 0⟩) = amwRawId "A" none none ↔
      (some (⟨2024, 3, 15, 10, 0⟩ : PyDT)) = none) :=
  ⟨claim_C6_identity_amended.2.2.1 "A" "B" none none (by decide),
   claim_C6_identity_amended.2.2.2.2 "A" none (some ⟨2024, 3, 15, 10, 0⟩) none
     (by decide) (by decide)⟩

/-- C7: in a non-dry run, every unhandled collaborator exception — the
scraper call itself, `get_client()`, or `upsert_listings` — makes
`run_scraper` return status `"error"` with the exception text as the error
message and the counts gathered before the failure (zero found when the
crawl itself raised, `len(rows)` found and zero upserted when a later step
raised); and the run-record writes are best-effort: the returned tuple never
depends on the outcomes of the `log_scrape_run` insert or of the error
branch's logging block. -/
theorem claim_C7_run_coordinator :
    (∀ (env : RunEnv) (e : String), env.scrapeRes = .error e →
      runScraperModel env false = (0, 0, "error", some e)) ∧
    (∀ (env : RunEnv) (rows : List Listing) (e : String),
      env.scrapeRes = .ok rows → env.getClientRes = .error e →
      runScraperModel env false = (rows.length, 0, "error", some e)) ∧
    (∀ (env : RunEnv) (rows : List Listing) (e : String),
      env.scrapeRes = .ok rows → rows.isEmpty = false → env.getClientRes = .ok () →
      env.upsertRes ((rows.filter
          (fun r => ! isLikelyErrorPage (some r.title) r.description)).map forSupabase) =
        .error e →
      runScraperModel env false = (rows.length, 0, "error", some e)) ∧
    (∀ (env : RunEnv) (l₁ l₂ : Except String Unit) (dr : Bool),
      runScraperModel { env with errLogRes := l₁, logInsertRes := l₂ } dr =
        runScraperModel env dr) := by
  refine ⟨?_, ?_, ?_, ?_⟩
  · intro env e h
    obtain ⟨sr, gc, ur, li, el⟩ := env
    simp only at h
    subst h
    rfl
  · intro env rows e hs hc
    obtain ⟨sr, gc, ur, li, el⟩ := env
    simp only at hs hc
    subst hs
    subst hc
    by_cases hemp : rows.isEmpty = true
    · have hlen : rows.length = 0 := by
        rw [List.isEmpty_iff] at hemp
        rw [hemp]
        rfl
      simp [runScraperModel, hemp, hlen]
    · simp [runScraperModel, hemp]
  · intro env rows e hs hemp hc hu
    obtain ⟨sr, gc, ur, li, el⟩ := env
    simp only at hs hc hu
    subst hs
    subst hc
    simp [runScraperModel, hemp, hu]
  · intro env l₁ l₂ dr
    obtain ⟨sr, gc, ur, li, el⟩ := env
    cases sr with
    | error e => rfl
    | ok rows =>
      cases dr with
      | true => rfl
      | false =>
        cases gc with
        | error e => rfl
        | ok u =>
          cases hu : ur ((rows.filter
              (fun r => ! isLikelyErrorPage (some r.title) r.description)).map forSupabase) <;>
            simp [runScraperModel, hu]

/-- C7, witnessed: a crawl exception yields `(0, 0, "error", text)` even when
the error-branch logging also fails, and an upsert exception yields
`(found, 0, "error", text)`. -/
theorem claim_C7_run_coordinator_witness :
    runScraperModel ⟨.error "boom", .ok (), fun _ => .ok 0, .ok (), .error "log down"⟩ false =
      (0, 0, "error", some "boom") ∧
    runScraperModel ⟨.ok [⟨"T", none, none, "l", "c", "komornik", "u", none, [], none⟩],
        .ok (), fun _ => .error "PGRST301", .ok (), .ok ()⟩ false =
      (1, 0, "error", some "PGRST301") :=
  ⟨claim_C7_run_coordinator.1
      ⟨.error "boom", .ok (), fun _ => .ok 0, .ok (), .error "log down"⟩ "boom" rfl,
   claim_C7_run_coordinator.2.2.1
      ⟨.ok [⟨"T", none, none, "l", "c", "komornik", "u", none, [], none⟩],
        .ok (), fun _ => .error "PGRST301", .ok (), .ok ()⟩
      [⟨"T", none, none, "l", "c", "komornik", "u", none, [], none⟩]
      "PGRST301" rfl rfl rfl rfl⟩

/-- C8: counterexample.  The claim says a schema-mismatch rejection for the
optional columns `region` and/or `last_seen_at` is retried with the
offending fields stripped and succeeds.  When the destination lacks *both*
columns, the first rejection names `region`, the single retry strips only
`region`, and the retry's own `last_seen_at` rejection is raised outside the
`try` of supabase_client.py lines 39-79 — it propagates instead of
succeeding: against a store missing both columns, the upsert of a row
carrying both keys returns the second error. -/
theorem claim_C8_upsert_retry_counterexample :
    upsertListings
      (fun rs =>
        if rs.any (fun r => List.any r (fun kv => kv.1 = "region")) then
          Except.error "PGRST204: column region does not exist"
        else if rs.any (fun r => List.any r (fun kv => kv.1 = "last_seen_at")) then
          Except.error "PGRST204: column last_seen_at does not exist"
        else Except.ok rs.length)
      [[("source_url", "u"), ("region", "mazowieckie"), ("last_seen_at", "2026-01-01")]] =
      Except.error "PGRST204: column last_seen_at does not exist" := by
  rfl

/-- C8 (amended): for every batch and persistence behaviour — an empty batch
upserts as 0 without touching the store; a first-attempt success is returned
as-is; a `PGRST204` rejection mentioning `region` (case-insensitively)
returns the outcome of one retry with `region` stripped from every row; a
`PGRST204` rejection mentioning `last_seen_at` but not `region` returns the
outcome of one retry with `last_seen_at` stripped; any other rejection — in
particular one mentioning neither column — propagates unchanged.  (The retry
outcome is whatever the store answers: a failing retry also propagates.) -/
theorem claim_C8_upsert_retry_amended :
    ∀ (attempt : List URow → Except String Nat) (rows : List URow),
      (rows.isEmpty = true → upsertListings attempt rows = .ok 0) ∧
      (∀ n, attempt rows = .ok n → rows.isEmpty = false →
        upsertListings attempt rows = .ok n) ∧
      (∀ e, rows.isEmpty = false → attempt rows = .error e →
        strContains e "PGRST204" = true → strContains (pyLower e) "region" = true →
        upsertListings attempt rows = attempt (rowsWithoutRegion rows)) ∧
      (∀ e, rows.isEmpty = false → attempt rows = .error e →
        strContains e "PGRST204" = true → strContains (pyLower e) "region" = false →
        strContains (pyLower e) "last_seen_at" = true →
        upsertListings attempt rows = attempt (rowsWithoutLastSeenAt rows)) ∧
      (∀ e, rows.isEmpty = false → attempt rows = .error e →
        (strContains e "PGRST204" = false ∨
          (strContains (pyLower e) "region" = false ∧
           strContains (pyLower e) "last_seen_at" = false)) →
        upsertListings attempt rows = .error e) := by
  intro attempt rows
  refine ⟨?_, ?_, ?_, ?_, ?_⟩
  · intro h
    simp [upsertListings, h]
  · intro n ha hemp
    simp [upsertListings, hemp, ha]
  · intro e hemp ha hPG hreg
    simp [upsertListings, hemp, ha, hPG, hreg]
  · intro e hemp ha hPG hreg hlsa
    simp [upsertListings, hemp, ha, hPG, hreg, hlsa]
  · intro e hemp ha hother
    rcases hother with hPG | ⟨hreg, hlsa⟩
    · simp [upsertListings, hemp, ha, hPG]
    · simp [upsertListings, hemp, ha, hreg, hlsa]

/-- C8 (amended), witnessed: a clean batch upserts with the store's count,
and a `region` schema rejection returns the outcome of the stripped retry. -/
theorem claim_C8_upsert_retry_amended_witness :
    upsertListings (fun rs => Except.ok rs.length) [[("source_url", "u")]] = Except.ok 1 ∧
    upsertListings
        (fun rs => if rs.any (fun r => List.any r (fun kv => kv.1 = "region")) then
            Except.error "PGRST204: region" else Except.ok rs.length)
        [[("region", "x"), ("source_url", "u")]] =
      (fun rs => if rs.any (fun r => List.any r (fun kv => kv.1 = "region")) then
            Except.error "PGRST204: region" else Except.ok rs.length)
        (rowsWithoutRegion [[("region", "x"), ("source_url", "u")]]) :=
  ⟨(claim_C8_upsert_retry_amended (fun rs => Except.ok rs.length)
      [[("source_url", "u")]]).2.1 1 rfl rfl,
   (claim_C8_upsert_retry_amended
      (fun rs => if rs.any (fun r => List.any r (fun kv => kv.1 = "region")) then
          Except.error "PGRST204: region" else Except.ok rs.length)
      [[("region", "x"), ("source_url", "u")]]).2.2.1
      "PGRST204: region" rfl rfl (by decide) (by decide)⟩

